import Mathlib

/-!
# gorm-wrap (`ezg`): auto-preload discovery and preload dispatch

A shallow embedding of `ezg/autopreloader.go` and of `Q.preload` and
`Q.Delete` from `ezg/gormhelper.go`.

* The run-time type descriptors that package `reflect` hands out form a graph
  (a named type may refer to itself). They are embedded as a table
  `TypeEnv : TypeId → TypeDesc`; a `reflect.Type` value is a `TypeId`.
* Go control flow that can fail to return is embedded with an explicit
  outcome type `Res`: a normal return, an abort (Go `panic`), or `timeout`
  when the iteration budget (`fuel`) of the embedding is used up.
* The `*gorm.DB` query value is embedded as the ordered log of the
  `Preload` calls applied to it, and a run of `Q.Delete` as the database
  deletes it issued together with the error it returned.
-/

namespace Ezg

/-! ## Outcomes -/

/-- The aborts (Go panics) the embedded code can raise. `maxRecursion depth`
is the explicit panic of `autoPreloadsInternal`; `depth` records the value of
the depth counter at the call that raised it. `nilDeref` is the run-time panic
of a method call on a nil `reflect.Type`. `logicError` is the explicit panic of
`Q.preload`, with the two lengths its message prints. `indexOutOfRange` is the
run-time panic of an index expression. `valueError` is the panic
`*reflect.ValueError` of a `reflect.Value` method called on a value of the
wrong kind. -/
inductive Abort where
  | maxRecursion (depth : Nat)
  | nilDeref
  | logicError (lenTables lenFuncs : Nat)
  | indexOutOfRange
  | valueError
  deriving DecidableEq, Repr

/-- Outcome of a Go computation: normal return, panic, or budget used up. -/
inductive Res (α : Type) where
  | ok (a : α)
  | abort (e : Abort)
  | timeout
  deriving DecidableEq, Repr

/-! ## Reflected types -/

abbrev TypeId := Nat

/-- The kinds of `reflect.Kind`. -/
inductive Kind where
  | Invalid | Bool | Int | Int8 | Int16 | Int32 | Int64
  | Uint | Uint8 | Uint16 | Uint32 | Uint64 | Uintptr
  | Float32 | Float64 | Complex64 | Complex128
  | Array | Chan | Func | Interface | Map | Ptr | Slice | String | Struct
  | UnsafePointer
  deriving DecidableEq, Repr

/-- The kinds that carry no element type and no fields. -/
inductive BasicKind where
  | Bool | Int | Int8 | Int16 | Int32 | Int64
  | Uint | Uint8 | Uint16 | Uint32 | Uint64 | Uintptr
  | Float32 | Float64 | Complex64 | Complex128
  | Func | Interface | String | UnsafePointer
  deriving DecidableEq, Repr

/-- The part of `reflect.StructField` the code reads. `Tag` is the struct tag
in parsed form: its `key:"value"` pairs in the order they are written. `Typ` is
the field `Type` of `reflect.StructField`. -/
structure StructField where
  Name : String
  PkgPath : String
  Typ : TypeId
  Tag : List (String × String)
  deriving DecidableEq, Repr

/-- A type descriptor: what `Kind`, `Elem`, `NumField` and `Field` return. -/
inductive TypeDesc where
  | Struct (fields : List StructField)
  | Ptr (elem : TypeId)
  | Slice (elem : TypeId)
  | Array (len : Nat) (elem : TypeId)
  | Map (key elem : TypeId)
  | Chan (elem : TypeId)
  | Basic (k : BasicKind)
  deriving DecidableEq, Repr

abbrev TypeEnv := TypeId → TypeDesc

def BasicKind.toKind : BasicKind → Kind
  | .Bool => .Bool | .Int => .Int | .Int8 => .Int8 | .Int16 => .Int16
  | .Int32 => .Int32 | .Int64 => .Int64
  | .Uint => .Uint | .Uint8 => .Uint8 | .Uint16 => .Uint16
  | .Uint32 => .Uint32 | .Uint64 => .Uint64 | .Uintptr => .Uintptr
  | .Float32 => .Float32 | .Float64 => .Float64
  | .Complex64 => .Complex64 | .Complex128 => .Complex128
  | .Func => .Func | .Interface => .Interface | .String => .String
  | .UnsafePointer => .UnsafePointer

/-- The method `reflect.Type.Kind`. -/
def TypeDesc.Kind : TypeDesc → Kind
  | .Struct _ => .Struct
  | .Ptr _ => .Ptr
  | .Slice _ => .Slice
  | .Array _ _ => .Array
  | .Map _ _ => .Map
  | .Chan _ => .Chan
  | .Basic k => k.toKind

/-- The method `StructTag.Lookup`: the value of the first pair with the given key. -/
def Lookup : List (String × String) → String → Option String
  | [], _ => none
  | (k, v) :: rest, key => if k = key then some v else Lookup rest key

/-- Case folding of one rune. On the letters of the two opt-out literals the
Unicode simple folding that `strings.EqualFold` uses has the orbits
`{lower, upper}` of ASCII, so folding to ASCII lower case decides it. -/
def foldRune (c : Char) : Nat :=
  if 65 ≤ c.toNat ∧ c.toNat ≤ 90 then c.toNat + 32 else c.toNat

/-- The function `strings.EqualFold`, see `foldRune`. -/
def EqualFold (s t : String) : Bool :=
  s.data.map foldRune = t.data.map foldRune

/-! ## `autopreloader.go` -/

def maxRecursion : Nat := 200
def nopreload1 : String := "no-preload"
def nopreload2 : String := "nopreload"

structure fieldInfo where
  name : String
  typ : TypeId
  deriving DecidableEq, Repr

/-- The argument `interface{}` of `autoPreloads` and `exportedFields`: a value
of some dynamic type, a `reflect.Type`, or the nil interface. -/
inductive Model where
  | value (t : TypeId)
  | type (t : TypeId)
  | nil
  deriving DecidableEq, Repr

/-- Lines 40-43 of `exportedFields`: `i.(reflect.Type)`, else
`reflect.TypeOf(i)`, which is nil for the nil interface. -/
def Model.typ : Model → Option TypeId
  | .type t => some t
  | .value t => some t
  | .nil => none

/-- The loop `for typ.Kind() != reflect.Struct` of `exportedFields`. The
result is `some fields` when the loop is left at a struct type and `none` when
the `default` branch returns the empty slice. -/
def unwrapLoop (env : TypeEnv) : Nat → TypeId → Res (Option (List StructField))
  | 0, _ => .timeout
  | fuel + 1, typ =>
    match env typ with
    | .Struct fields => .ok (some fields)
    | .Ptr elem => unwrapLoop env fuel elem
    | .Slice elem => unwrapLoop env fuel elem
    | .Array _ elem => unwrapLoop env fuel elem
    | _ => .ok none

/-- The loop over the struct fields of `exportedFields`; `fields` is the
slice built so far. -/
def fieldLoop : List StructField → List fieldInfo → List fieldInfo
  | [], fields => fields
  | f :: rest, fields =>
    match Lookup f.Tag "ezg" with
    | some tag =>
      if EqualFold tag nopreload1 || EqualFold tag nopreload2 then
        fieldLoop rest fields
      else if f.PkgPath = "" then
        fieldLoop rest (fields ++ [{ name := f.Name, typ := f.Typ }])
      else
        fieldLoop rest fields
    | none =>
      if f.PkgPath = "" then
        fieldLoop rest (fields ++ [{ name := f.Name, typ := f.Typ }])
      else
        fieldLoop rest fields

/-- The function `exportedFields`. -/
def exportedFields (env : TypeEnv) (fuel : Nat) (i : Model) : Res (List fieldInfo) :=
  match i.typ with
  | none => .abort .nilDeref
  | some typ =>
    match unwrapLoop env fuel typ with
    | .ok (some fields) => .ok (fieldLoop fields [])
    | .ok none => .ok []
    | .abort e => .abort e
    | .timeout => .timeout

/-- The loop `for _, fld := range flds` of `autoPreloadsInternal`; `recur` is
the recursive call at depth `i+1` and `out` the slice built so far. -/
def rangeLoop (env : TypeEnv) (recur : Model → String → Res (List String))
    (pfx : String) : List fieldInfo → List String → Res (List String)
  | [], out => .ok out
  | fld :: rest, out =>
    if (env fld.typ).Kind = Kind.Slice then
      match recur (.type fld.typ) (pfx ++ fld.name ++ ".") with
      | .ok sub => rangeLoop env recur pfx rest ((out ++ [pfx ++ fld.name]) ++ sub)
      | .abort e => .abort e
      | .timeout => .timeout
    else
      rangeLoop env recur pfx rest out

/-- The function `autoPreloadsInternal`. The counter `i` is a Go `uint`; `i+1` is only
computed when `i ≤ 200`, so it never wraps. The ceiling test comes first, as in
the source; `fuel` bounds the nesting of calls and the iterations of the
unwrapping loop. -/
def autoPreloadsInternal (env : TypeEnv) (fuel : Nat) (model : Model) (pfx : String)
    (i : Nat) : Res (List String) :=
  if i > maxRecursion then
    .abort (.maxRecursion i)
  else
    match fuel with
    | 0 => .timeout
    | fuel' + 1 =>
      match exportedFields env (fuel' + 1) model with
      | .ok flds =>
        rangeLoop env (fun m p => autoPreloadsInternal env fuel' m p (i + 1)) pfx flds []
      | .abort e => .abort e
      | .timeout => .timeout

/-- The function `autoPreloads`. -/
def autoPreloads (env : TypeEnv) (fuel : Nat) (model : Model) : Res (List String) :=
  autoPreloadsInternal env fuel model "" 0

/-! ## The types of `autopreload_test.go` -/

/-- The type table of `Test_AutopreloadingFields`:
`0 = Parent`, `1 = []*ChldT1`, `2 = *ChldT1`, `3 = ChldT1`, `4 = []ChldT2`,
`5 = ChldT2`, `6 = []*ChldT3`, `7 = *ChldT3`, `8 = ChldT3`, `9 = string`,
`10 = []ChldT4NoPreload`, `11 = ChldT4NoPreload`, `12 = *Parent`. -/
def testEnv : TypeEnv
  | 0 => .Struct [⟨"Children", "", 1, []⟩]
  | 1 => .Slice 2
  | 2 => .Ptr 3
  | 3 => .Struct [⟨"ChildrenT2", "", 4, []⟩]
  | 4 => .Slice 5
  | 5 => .Struct [⟨"ChildrenT3", "", 6, []⟩]
  | 6 => .Slice 7
  | 7 => .Ptr 8
  | 8 => .Struct [⟨"Foo", "", 9, []⟩,
                  ⟨"NoPreloads", "", 10, [("ezg", "no-preload")]⟩,
                  ⟨"NoPreloads2", "", 10, [("ezg", "nopreload")]⟩]
  | 10 => .Slice 11
  | 11 => .Struct [⟨"Foo", "", 9, []⟩]
  | 12 => .Ptr 0
  | _ => .Basic .String

/-! ## Descriptions used to state the properties -/

/-- A field is exported: `PkgPath == ""`. -/
def exported (f : StructField) : Bool := f.PkgPath = ""

/-- A field carries the opt-out annotation: its `ezg` tag is present and
equals, ignoring letter case, `no-preload` or `nopreload`. -/
def optedOut (f : StructField) : Bool :=
  match Lookup f.Tag "ezg" with
  | some tag => EqualFold tag "no-preload" || EqualFold tag "nopreload"
  | none => false

/-- The field list the specification describes for a struct type: the
exported fields without opt-out annotation, in declaration order. -/
def includedFields (fields : List StructField) : List fieldInfo :=
  (fields.filter (fun f => exported f && !optedOut f)).map
    (fun f => { name := f.Name, typ := f.Typ })

/-- The element type of a collection type. The specification counts slices
and arrays as collections (`arrays = true`); with `arrays = false` only slices
count. -/
def collectionElem (arrays : Bool) : TypeDesc → Option TypeId
  | .Slice elem => some elem
  | .Array _ elem => if arrays then some elem else none
  | _ => none

/-- One level of the depth-first pre-order reference list: the concatenation
over the fields, in order, of nothing for a non-collection field and of
`pfx+name` followed by the list of the element type for a collection field. -/
def referenceLoop (arrays : Bool) (env : TypeEnv)
    (recur : TypeId → String → Res (List String)) (pfx : String) :
    List fieldInfo → Res (List String)
  | [] => .ok []
  | fld :: rest =>
    match collectionElem arrays (env fld.typ) with
    | some elem =>
      match recur elem (pfx ++ fld.name ++ ".") with
      | .ok sub =>
        match referenceLoop arrays env recur pfx rest with
        | .ok more => .ok ([pfx ++ fld.name] ++ sub ++ more)
        | .abort e => .abort e
        | .timeout => .timeout
      | .abort e => .abort e
      | .timeout => .timeout
    | none => referenceLoop arrays env recur pfx rest

/-- The depth-first pre-order reference list of the specification. It has no
depth counter. -/
def referencePaths (arrays : Bool) (env : TypeEnv) :
    Nat → Model → String → Res (List String)
  | 0, _, _ => .timeout
  | fuel + 1, model, pfx =>
    match exportedFields env (fuel + 1) model with
    | .ok flds =>
      referenceLoop arrays env (fun t p => referencePaths arrays env fuel (.type t) p) pfx flds
    | .abort e => .abort e
    | .timeout => .timeout

/-- The type table with every opted-out field deleted from every struct. -/
def deleteOptedOut (env : TypeEnv) : TypeEnv := fun t =>
  match env t with
  | .Struct fields => .Struct (fields.filter (fun f => !optedOut f))
  | d => d

/-- The type table with the declared type of every opted-out field replaced
by `g` of it. -/
def retargetOptedOut (g : TypeId → TypeId) (env : TypeEnv) : TypeEnv := fun t =>
  match env t with
  | .Struct fields =>
    .Struct (fields.map (fun f => if optedOut f then { f with Typ := g f.Typ } else f))
  | d => d

/-- The relation `Reaches env a s`: unwrapping pointers, slices and arrays from `a` arrives
at the struct type `s`. -/
inductive Reaches (env : TypeEnv) : TypeId → TypeId → Prop where
  | here {s : TypeId} {fields : List StructField} (h : env s = .Struct fields) :
      Reaches env s s
  | ptr {a e s : TypeId} (h : env a = .Ptr e) (r : Reaches env e s) : Reaches env a s
  | slice {a e s : TypeId} (h : env a = .Slice e) (r : Reaches env e s) : Reaches env a s
  | array {a e s : TypeId} {n : Nat} (h : env a = .Array n e) (r : Reaches env e s) :
      Reaches env a s

/-- A struct type that is self-referential through a slice field that is
exported and not opted out. -/
def SelfReferential (env : TypeEnv) (s : TypeId) : Prop :=
  ∃ fields f, env s = .Struct fields ∧ f ∈ fields ∧ exported f = true ∧
    optedOut f = false ∧ (env f.Typ).Kind = Kind.Slice ∧ Reaches env f.Typ s

/-- The unwrapping loop of `exportedFields` leaves every type of the table. -/
def UnwrapTerminates (env : TypeEnv) : Prop :=
  ∀ t, ∃ n, unwrapLoop env n t ≠ .timeout

/-- A path as the dot-separated chain of its field names. -/
def joinPath : List String → String
  | [] => ""
  | [a] => a
  | a :: b :: rest => a ++ "." ++ joinPath (b :: rest)

/-- Apply a function to the value of a normal return. -/
def Res.map {α β : Type} (f : α → β) : Res α → Res β
  | .ok a => .ok (f a)
  | .abort e => .abort e
  | .timeout => .timeout

/-! ## Further type tables -/

/-- The models of `test/models_test.go`:
`0 = Author`, `1 = gorm.Model`, `2 = string`, `3 = []Post`, `4 = Post`,
`5 = []Img`, `6 = Img`, `7 = []Vid`, `8 = Vid`, `9 = uint`, `10 = time.Time`,
`11 = gorm.DeletedAt`, `12 = *Author`. The embedded field `gorm.Model` is a
field named `Model` of struct kind. -/
def blogEnv : TypeEnv
  | 0 => .Struct [⟨"Model", "", 1, []⟩, ⟨"Username", "", 2, []⟩, ⟨"Posts", "", 3, []⟩]
  | 1 => .Struct [⟨"ID", "", 9, [("gorm", "primarykey")]⟩, ⟨"CreatedAt", "", 10, []⟩,
                  ⟨"UpdatedAt", "", 10, []⟩, ⟨"DeletedAt", "", 11, [("gorm", "index")]⟩]
  | 3 => .Slice 4
  | 4 => .Struct [⟨"Model", "", 1, []⟩, ⟨"Title", "", 2, []⟩, ⟨"Content", "", 2, []⟩,
                  ⟨"Images", "", 5, []⟩, ⟨"Videos", "", 7, []⟩, ⟨"AuthorId", "", 9, []⟩]
  | 5 => .Slice 6
  | 6 => .Struct [⟨"Model", "", 1, []⟩, ⟨"Title", "", 2, []⟩, ⟨"PostId", "", 9, []⟩]
  | 7 => .Slice 8
  | 8 => .Struct [⟨"Model", "", 1, []⟩, ⟨"Title", "", 2, []⟩, ⟨"PostId", "", 9, []⟩]
  | 9 => .Basic .Uint
  | 10 => .Struct []
  | 11 => .Struct []
  | 12 => .Ptr 0
  | _ => .Basic .String

/-- The types `Model{F [3]Child}`, `Child{Items []Leaf}`, `Leaf{X int}`, and `Bare{}`,
which is `Model` without its field:
`0 = Model`, `1 = [3]Child`, `2 = Child`, `3 = []Leaf`, `4 = Leaf`, `5 = int`,
`6 = Bare`. -/
def arrayEnv : TypeEnv
  | 0 => .Struct [⟨"F", "", 1, []⟩]
  | 1 => .Array 3 2
  | 2 => .Struct [⟨"Items", "", 3, []⟩]
  | 3 => .Slice 4
  | 4 => .Struct [⟨"X", "", 5, []⟩]
  | 6 => .Struct []
  | _ => .Basic .Int

/-- The type `Node{Children []Node}`: `0 = Node`, `1 = []Node`. -/
def nodeEnv : TypeEnv
  | 0 => .Struct [⟨"Children", "", 1, []⟩]
  | 1 => .Slice 0
  | _ => .Basic .Int

/-- The type `Node{Children []*Node}`: `0 = Node`, `1 = []*Node`, `2 = *Node`. -/
def nodePtrEnv : TypeEnv
  | 0 => .Struct [⟨"Children", "", 1, []⟩]
  | 1 => .Slice 2
  | 2 => .Ptr 0
  | _ => .Basic .Int

/-- The struct of `nodeEnv` with the opt-out annotation on its field:
`0 = Node`, `1 = []Node`. -/
def nodeOptOutEnv : TypeEnv
  | 0 => .Struct [⟨"Children", "", 1, [("ezg", "nopreload")]⟩]
  | 1 => .Slice 0
  | _ => .Basic .Int

/-- The type `Model{F []string}`: `0 = Model`, `1 = []string`, `2 = string`. -/
def scalarEnv : TypeEnv
  | 0 => .Struct [⟨"F", "", 1, []⟩]
  | 1 => .Slice 2
  | _ => .Basic .String

/-- The type `type S []S`: `0 = S`; `Holder{Bad []S; Children []Holder}`:
`1 = Holder`, `2 = []S`, `3 = []Holder`; and `Box{Bad []S}`: `4 = Box`. -/
def selfSliceEnv : TypeEnv
  | 0 => .Slice 0
  | 1 => .Struct [⟨"Bad", "", 2, []⟩, ⟨"Children", "", 3, []⟩]
  | 2 => .Slice 0
  | 3 => .Slice 1
  | 4 => .Struct [⟨"Bad", "", 2, []⟩]
  | _ => .Basic .Int

/-- The type `type P *P`: `0 = P`. -/
def selfPtrEnv : TypeEnv
  | 0 => .Ptr 0
  | _ => .Basic .Int

/-- Two type tables that `autoPreloads` cannot tell apart: the same
descriptors, except that struct types need only have the same included
fields. -/
def EnvAgree (env env' : TypeEnv) : Prop :=
  ∀ t, match env t, env' t with
    | .Struct a, .Struct b => includedFields a = includedFields b
    | x, y => x = y

/-! ## `Q.preload` of `gormhelper.go` -/

/-- One call `qry.Preload(query, args...)`. `F` is the type of the modifier
functions `func(orm *gorm.DB) *gorm.DB`. -/
structure PreloadCall (F : Type) where
  query : String
  args : List F
  deriving DecidableEq, Repr

/-- A `*gorm.DB` query value: the `Preload` calls applied to it, in order. -/
abbrev DB (F : Type) := List (PreloadCall F)

/-- The method `(*gorm.DB).Preload`. -/
def DB.Preload {F : Type} (qry : DB F) (query : String) (args : List F) : DB F :=
  qry ++ [{ query := query, args := args }]

/-- What the type assertions of `Q.preload` find on the model: the
single-relation `RequiresPreload` with the pair it returns, the multi-relation
`RequiresPreload` with its two slices, or neither. A nil function is `none`. -/
inductive RequiresPreload (F : Type) where
  | single (a : String) (b : Option F)
  | multi (a : List String) (b : List (Option F))
  | absent
  deriving DecidableEq, Repr

/-- The wrapper `Q[t]`: `obj` is the dynamic type `*t` of the wrapped
pointer. -/
structure Q (F : Type) where
  obj : TypeId
  requiresPreload : RequiresPreload F

/-- How a run of `Q.preload` ends: `qry` is the query value reached, which is
the value returned when `result` is a normal return. -/
structure PreloadRun (F : Type) where
  qry : DB F
  result : Res Unit
  deriving DecidableEq, Repr

/-- The loop `for i := range a { qry = qry.Preload(a[i]) }`. -/
def preloadEach {F : Type} : List String → DB F → DB F
  | [], qry => qry
  | x :: rest, qry => preloadEach rest (qry.Preload x [])

/-- The loop over `a` that reads `b[i]` next to `a[i]`. -/
def preloadEachWith {F : Type} : List String → List (Option F) → DB F → PreloadRun F
  | [], _, qry => { qry := qry, result := .ok () }
  | _ :: _, [], qry => { qry := qry, result := .abort .indexOutOfRange }
  | x :: rest, none :: fs, qry => preloadEachWith rest fs (qry.Preload x [])
  | x :: rest, some f :: fs, qry => preloadEachWith rest fs (qry.Preload x [f])

/-- The method `Q.preload`. -/
def Q.preload {F : Type} (env : TypeEnv) (fuel : Nat) (q : Q F) (qry : DB F)
    (shallow : Bool) : PreloadRun F :=
  if shallow then
    { qry := qry, result := .ok () }
  else
    match q.requiresPreload with
    | .single a b =>
      match b with
      | none => { qry := qry.Preload a [], result := .ok () }
      | some f => { qry := qry.Preload a [f], result := .ok () }
    | .absent =>
      match autoPreloads env fuel (.value q.obj) with
      | .ok a => { qry := preloadEach a qry, result := .ok () }
      | .abort e => { qry := qry, result := .abort e }
      | .timeout => { qry := qry, result := .timeout }
    | .multi a b =>
      if b.length = 0 then
        { qry := preloadEach a qry, result := .ok () }
      else if a.length ≠ b.length then
        { qry := qry, result := .abort (.logicError a.length b.length) }
      else
        preloadEachWith a b qry

/-! ## Chains of fields -/

/-- The relation `FieldOf env t f`: `f` is a field, exported and without opt-out
annotation, of the struct that `t` unwraps to. -/
def FieldOf (env : TypeEnv) (t : TypeId) (f : StructField) : Prop :=
  ∃ s fields, Reaches env t s ∧ env s = .Struct fields ∧ f ∈ fields ∧
    exported f = true ∧ optedOut f = false

/-- The declared type of `f` is a collection (slice or array) whose element
type unwraps to a struct. -/
def CollectionOfStructs (env : TypeEnv) (f : StructField) : Prop :=
  ∃ e s, collectionElem true (env f.Typ) = some e ∧ Reaches env e s

/-- The relation `Chain env Link Terminal t fs`: `fs` is a chain of fields from the model
type `t`: each is a `FieldOf` the type before it, every field but the last
satisfies `Link` and the last satisfies `Terminal`. -/
inductive Chain (env : TypeEnv) (Link Terminal : StructField → Prop) :
    TypeId → List StructField → Prop where
  | last {t : TypeId} {f : StructField} (hf : FieldOf env t f) (ht : Terminal f) :
      Chain env Link Terminal t [f]
  | link {t : TypeId} {f : StructField} {rest : List StructField} (hf : FieldOf env t f)
      (hl : Link f) (hr : Chain env Link Terminal f.Typ rest) :
      Chain env Link Terminal t (f :: rest)

/-! ## Paths as strings -/

/-- The characters before the last `.`; nothing when there is no `.`. -/
def parentChars : List Char → List Char
  | [] => []
  | c :: cs => if '.' ∈ cs then c :: parentChars cs else []

/-- The path with its last dot-separated segment removed. -/
def parentPath (p : String) : String := ⟨parentChars p.data⟩

/-- The test `hasPfx q p`: `q` is a prefix of `p`. -/
def hasPfx : List Char → List Char → Bool
  | [], _ => true
  | _ :: _, [] => false
  | a :: q, b :: p => a = b && hasPfx q p

/-- What Go guarantees of a struct type: no field name holds a `.`, and the
names of the exported fields are pairwise different. -/
def wellNamed : TypeDesc → Bool
  | .Struct fields =>
    fields.all (fun f => !decide ('.' ∈ f.Name.data)) &&
      decide (((includedFields fields).map (fun fld => fld.name)).Nodup)
  | _ => true

/-- Every type of the table is `wellNamed`. -/
def WellNamed (env : TypeEnv) : Prop := ∀ t, wellNamed (env t) = true

/-- The relation `Flat pfx names L`: `L` is the pre-order list, under the prefix `pfx`, of
a forest whose roots are named `names`: for each root `pfx+name`, then the
list of its children under `pfx+name+"."`. Names hold no `.` and the names of
the roots are pairwise different. -/
inductive Flat : List Char → List (List Char) → List (List Char) → Prop where
  | nil (pfx : List Char) : Flat pfx [] []
  | node {pfx nm : List Char} {names names' sub L : List (List Char)}
      (hdot : '.' ∉ nm) (hnew : nm ∉ names)
      (hsub : Flat (pfx ++ nm ++ ['.']) names' sub) (hrest : Flat pfx names L) :
      Flat pfx (nm :: names) ((pfx ++ nm) :: (sub ++ L))

/-! ## `Q.Delete` of `gormhelper.go` -/

/-- A `reflect.Value` as far as `Q.Delete` looks at it: the zero value
`reflect.Value{}`, a value of struct kind with the fields `FieldByName` finds
in it, a value of an unsigned integer kind (`Uint`, `Uint8`, ..., `Uintptr`)
with the number it holds, or a valid value of any other kind. -/
inductive Value where
  | zero
  | Struct (fields : List (String × Value))
  | Unsigned (n : Nat)
  | Other

/-- A Go `error`: nil (`none`) or an error with its message. -/
abbrev GoError := Option String

/-- The field of the given name among the fields of a struct value, and the
zero value when there is none. -/
def lookupField : List (String × Value) → String → Value
  | [], _ => .zero
  | (k, v) :: rest, name => if k = name then v else lookupField rest name

/-- The method `reflect.Value.FieldByName`: it panics unless the value is of
struct kind. -/
def Value.FieldByName : Value → String → Res Value
  | .Struct fields, name => .ok (lookupField fields name)
  | _, _ => .abort .valueError

/-- The test `field == (reflect.Value{})`. -/
def Value.isZero : Value → Bool
  | .zero => true
  | _ => false

/-- The method `reflect.Value.CanUint`. -/
def Value.CanUint : Value → Bool
  | .Unsigned _ => true
  | _ => false

/-- The method `reflect.Value.Uint`: it panics unless the value is of an
unsigned integer kind. -/
def Value.Uint : Value → Res Nat
  | .Unsigned n => .ok n
  | _ => .abort .valueError

/-- The message of the error `Q.Delete` creates. -/
def errNotGormModel : String :=
  "LOGIC ERROR: model is not gorm.Model. Implement override function"

/-- How a run of `Q.Delete` ends: `deleted` holds the values for which the
database delete `db.Model(q.obj).Delete("id", value)` was issued, `result` the
error returned. -/
structure DeleteRun where
  deleted : List Nat
  result : Res GoError
  deriving DecidableEq, Repr

/-- The method `Q.Delete`. `custom` is the error the model's own `Delete`
method returns, when it has one; `obj` is the value `q.obj` points to, `none`
for a nil pointer, so that `reflect.ValueOf(q.obj).Elem()` is that value or the
zero value; `dbError` is the error the database delete returns. -/
def Delete (custom : Option GoError) (obj : Option Value) (dbError : GoError) : DeleteRun :=
  match custom with
  | some e => { deleted := [], result := .ok e }
  | none =>
    let metaValue := match obj with
      | some v => v
      | none => Value.zero
    match metaValue.FieldByName "Model" with
    | .ok field =>
      if field.isZero then
        { deleted := [], result := .ok (some errNotGormModel) }
      else
        match field.FieldByName "ID" with
        | .ok field =>
          if field.isZero || !field.CanUint then
            { deleted := [], result := .ok (some errNotGormModel) }
          else
            match field.Uint with
            | .ok value => { deleted := [value], result := .ok dbError }
            | .abort e => { deleted := [], result := .abort e }
            | .timeout => { deleted := [], result := .timeout }
        | .abort e => { deleted := [], result := .abort e }
        | .timeout => { deleted := [], result := .timeout }
    | .abort e => { deleted := [], result := .abort e }
    | .timeout => { deleted := [], result := .timeout }

/-- The value is a struct with a field `Model` that is a struct with a field
`ID` of an unsigned integer kind, as a struct embedding `gorm.Model` is. -/
def IsGormModel (v : Value) : Prop :=
  ∃ fields mfields n, v = .Struct fields ∧ lookupField fields "Model" = .Struct mfields ∧
    lookupField mfields "ID" = .Unsigned n

/-- A chain of nested fields from the type `t`, each exported, without
opt-out annotation and of slice kind. -/
def SliceChain (env : TypeEnv) (t : TypeId) (c : List StructField) : Prop :=
  Chain env (fun f => (env f.Typ).Kind = Kind.Slice) (fun f => (env f.Typ).Kind = Kind.Slice)
    t c

/-- The types `Doc{Tags []string; Parts []Part; Refs []*int}` and
`Part{Notes []string}`: `0 = Doc`, `1 = []string`, `2 = string`, `3 = []Part`,
`4 = Part`, `5 = []*int`, `6 = *int`, `7 = int`. -/
def leafEnv : TypeEnv
  | 0 => .Struct [⟨"Tags", "", 1, []⟩, ⟨"Parts", "", 3, []⟩, ⟨"Refs", "", 5, []⟩]
  | 1 => .Slice 2
  | 2 => .Basic .String
  | 3 => .Slice 4
  | 4 => .Struct [⟨"Notes", "", 1, []⟩]
  | 5 => .Slice 6
  | 6 => .Ptr 7
  | _ => .Basic .Int

/-- The type `Doc{Tags []string; Kids []Doc}`: `0 = Doc`, `1 = []string`,
`2 = string`, `3 = []Doc`. -/
def selfLeafEnv : TypeEnv
  | 0 => .Struct [⟨"Tags", "", 1, []⟩, ⟨"Kids", "", 3, []⟩]
  | 1 => .Slice 2
  | 2 => .Basic .String
  | 3 => .Slice 0
  | _ => .Basic .Int

/-! ## Basic facts about the loops -/

theorem fieldLoop_eq (fs : List StructField) (acc : List fieldInfo) :
    fieldLoop fs acc = acc ++ includedFields fs := by
  induction fs generalizing acc with
  | nil => simp [fieldLoop, includedFields]
  | cons f rest ih =>
    unfold fieldLoop
    cases hl : Lookup f.Tag "ezg" with
    | none =>
      by_cases hp : f.PkgPath = ""
      · simp [hp, ih, includedFields, exported, optedOut, hl, List.filter_cons]
      · simp [hp, ih, includedFields, exported, optedOut, hl, List.filter_cons]
    | some tag =>
      by_cases ho : (EqualFold tag nopreload1 || EqualFold tag nopreload2) = true
      · have ho2 : (EqualFold tag "no-preload" || EqualFold tag "nopreload") = true := ho
        simp only [ho, if_true]
        simp [ih, includedFields, exported, optedOut, hl, ho2, List.filter_cons]
      · have ho2 : ¬ (EqualFold tag "no-preload" || EqualFold tag "nopreload") = true := ho
        simp only [ho, if_false]
        by_cases hp : f.PkgPath = ""
        · simp [hp, ih, includedFields, exported, optedOut, hl, ho2, List.filter_cons]
        · simp [hp, ih, includedFields, exported, optedOut, hl, ho2, List.filter_cons]

theorem unwrapLoop_succ (env : TypeEnv) :
    ∀ (n : Nat) (t : TypeId) (x : Option (List StructField)),
      unwrapLoop env n t = .ok x → unwrapLoop env (n + 1) t = .ok x := by
  intro n
  induction n with
  | zero => intro t x h; simp [unwrapLoop] at h
  | succ n ih =>
    intro t x h
    rw [unwrapLoop] at h
    rw [unwrapLoop]
    cases hd : env t with
    | Struct fields => simpa [hd] using h
    | Ptr e => rw [hd] at h; exact ih e x h
    | Slice e => rw [hd] at h; exact ih e x h
    | Array k e => rw [hd] at h; exact ih e x h
    | Map k e => simpa [hd] using h
    | Chan e => simpa [hd] using h
    | Basic k => simpa [hd] using h

theorem unwrapLoop_mono (env : TypeEnv) (n m : Nat) (hnm : n ≤ m) (t : TypeId)
    (x : Option (List StructField)) (h : unwrapLoop env n t = .ok x) :
    unwrapLoop env m t = .ok x := by
  induction hnm with
  | refl => exact h
  | step _ ih => exact unwrapLoop_succ env _ t x ih

theorem unwrapLoop_ne_abort (env : TypeEnv) :
    ∀ (n : Nat) (t : TypeId) (e : Abort), unwrapLoop env n t ≠ .abort e := by
  intro n
  induction n with
  | zero => intro t e; simp [unwrapLoop]
  | succ n ih =>
    intro t e
    rw [unwrapLoop]
    cases hd : env t with
    | Struct fields => simp
    | Ptr e => exact ih _ _
    | Slice e => exact ih _ _
    | Array k e => exact ih _ _
    | Map k e => simp
    | Chan e => simp
    | Basic k => simp

theorem exportedFields_mono (env : TypeEnv) (n m : Nat) (hnm : n ≤ m) (i : Model)
    (x : List fieldInfo) (h : exportedFields env n i = .ok x) :
    exportedFields env m i = .ok x := by
  unfold exportedFields at h ⊢
  cases ht : i.typ with
  | none => simp [ht] at h
  | some t =>
    simp only [ht] at h ⊢
    cases hu : unwrapLoop env n t with
    | ok o =>
      rw [unwrapLoop_mono env n m hnm t o hu]
      rw [hu] at h
      exact h
    | abort e => simp [hu] at h
    | timeout => simp [hu] at h

theorem exportedFields_slice (env : TypeEnv) (n : Nat) (t e : TypeId)
    (h : env t = .Slice e) :
    exportedFields env (n + 1) (.type t) = exportedFields env n (.type e) := by
  simp [exportedFields, Model.typ, unwrapLoop, h]

theorem exportedFields_abort (env : TypeEnv) (n : Nat) (i : Model) (e : Abort)
    (h : exportedFields env n i = .abort e) : i.typ = none ∧ e = .nilDeref := by
  unfold exportedFields at h
  cases ht : i.typ with
  | none => simp [ht] at h; exact ⟨rfl, h.symm⟩
  | some t =>
    simp only [ht] at h
    cases hu : unwrapLoop env n t with
    | ok o => cases o <;> simp [hu] at h
    | abort e2 => exact absurd hu (unwrapLoop_ne_abort env n t e2)
    | timeout => simp [hu] at h

theorem rangeLoop_acc (env : TypeEnv) (recur : Model → String → Res (List String))
    (pfx : String) (flds : List fieldInfo) (out : List String) :
    rangeLoop env recur pfx flds out
      = (rangeLoop env recur pfx flds []).map (fun l => out ++ l) := by
  induction flds generalizing out with
  | nil => simp [rangeLoop, Res.map]
  | cons fld rest ih =>
    unfold rangeLoop
    by_cases hk : (env fld.typ).Kind = Kind.Slice
    · simp only [hk, if_true]
      cases hr : recur (.type fld.typ) (pfx ++ fld.name ++ ".") with
      | ok sub =>
        simp only []
        rw [ih ((out ++ [pfx ++ fld.name]) ++ sub), ih (([] ++ [pfx ++ fld.name]) ++ sub)]
        cases rangeLoop env recur pfx rest [] <;> simp [Res.map]
      | abort e => simp [Res.map]
      | timeout => simp [Res.map]
    · simp only [hk, if_false]
      exact ih out

/-- One step of the loop at a slice field, without accumulator. -/
theorem rangeLoop_cons_slice (env : TypeEnv) (recur : Model → String → Res (List String))
    (pfx : String) (fld : fieldInfo) (rest : List fieldInfo)
    (hk : (env fld.typ).Kind = Kind.Slice) :
    rangeLoop env recur pfx (fld :: rest) []
      = match recur (.type fld.typ) (pfx ++ fld.name ++ ".") with
        | .ok sub => (rangeLoop env recur pfx rest []).map
            (fun l => (pfx ++ fld.name) :: (sub ++ l))
        | .abort e => .abort e
        | .timeout => .timeout := by
  conv_lhs => unfold rangeLoop
  simp only [hk, if_true]
  cases hr : recur (.type fld.typ) (pfx ++ fld.name ++ ".") with
  | ok sub =>
    simp only []
    rw [rangeLoop_acc]
    cases rangeLoop env recur pfx rest [] <;> simp [Res.map]
  | abort e => rfl
  | timeout => rfl

theorem rangeLoop_cons_slice_acc (env : TypeEnv) (recur : Model → String → Res (List String))
    (pfx : String) (fld : fieldInfo) (rest : List fieldInfo) (out : List String)
    (hk : (env fld.typ).Kind = Kind.Slice) :
    rangeLoop env recur pfx (fld :: rest) out
      = match recur (.type fld.typ) (pfx ++ fld.name ++ ".") with
        | .ok sub => rangeLoop env recur pfx rest ((out ++ [pfx ++ fld.name]) ++ sub)
        | .abort e => .abort e
        | .timeout => .timeout := by
  conv_lhs => unfold rangeLoop
  simp only [hk, if_true]

theorem rangeLoop_cons_other (env : TypeEnv) (recur : Model → String → Res (List String))
    (pfx : String) (fld : fieldInfo) (rest : List fieldInfo) (out : List String)
    (hk : (env fld.typ).Kind ≠ Kind.Slice) :
    rangeLoop env recur pfx (fld :: rest) out = rangeLoop env recur pfx rest out := by
  conv_lhs => unfold rangeLoop
  simp [hk]

theorem autoPreloadsInternal_succ (env : TypeEnv) (fuel : Nat) (model : Model)
    (pfx : String) (i : Nat) (hi : i ≤ maxRecursion) :
    autoPreloadsInternal env (fuel + 1) model pfx i
      = match exportedFields env (fuel + 1) model with
        | .ok flds =>
          rangeLoop env (fun m p => autoPreloadsInternal env fuel m p (i + 1)) pfx flds []
        | .abort e => .abort e
        | .timeout => .timeout := by
  conv_lhs => unfold autoPreloadsInternal
  simp [Nat.not_lt.mpr hi]

theorem autoPreloadsInternal_zero (env : TypeEnv) (model : Model)
    (pfx : String) (i : Nat) (hi : i ≤ maxRecursion) :
    autoPreloadsInternal env 0 model pfx i = .timeout := by
  unfold autoPreloadsInternal
  simp [Nat.not_lt.mpr hi]

theorem autoPreloadsInternal_ceiling (env : TypeEnv) (fuel : Nat) (model : Model)
    (pfx : String) (i : Nat) (hi : maxRecursion < i) :
    autoPreloadsInternal env fuel model pfx i = .abort (.maxRecursion i) := by
  unfold autoPreloadsInternal
  simp [hi]

/-! ## C1: the result is the depth-first pre-order reference list -/

theorem rangeLoop_refines (env : TypeEnv) (f i : Nat) (pfx : String)
    (ih : ∀ (t e : TypeId) (p : String) (sub : List String), env t = .Slice e →
      autoPreloadsInternal env f (.type t) p (i + 1) = .ok sub →
      referencePaths false env f (.type e) p = .ok sub) :
    ∀ (flds : List fieldInfo) (L : List String),
      rangeLoop env (fun m p => autoPreloadsInternal env f m p (i + 1)) pfx flds [] = .ok L →
      referenceLoop false env (fun t p => referencePaths false env f (.type t) p) pfx flds
        = .ok L := by
  intro flds
  induction flds with
  | nil => intro L h; simpa [rangeLoop, referenceLoop] using h
  | cons fld rest ihl =>
    intro L h
    by_cases hk : (env fld.typ).Kind = Kind.Slice
    · rw [rangeLoop_cons_slice _ _ _ _ _ hk] at h
      cases hd : env fld.typ with
      | Slice e =>
        cases hr : autoPreloadsInternal env f (.type fld.typ) (pfx ++ fld.name ++ ".") (i + 1) with
        | ok sub =>
          simp only [hr] at h
          cases hrest : rangeLoop env (fun m p => autoPreloadsInternal env f m p (i + 1))
              pfx rest [] with
          | ok more =>
            rw [hrest] at h
            simp only [Res.map, Res.ok.injEq] at h
            unfold referenceLoop
            simp only [hd, collectionElem]
            rw [ih fld.typ e _ sub hd hr, ihl more hrest]
            simp [← h]
          | abort e2 => rw [hrest] at h; simp [Res.map] at h
          | timeout => rw [hrest] at h; simp [Res.map] at h
        | abort e2 => simp [hr] at h
        | timeout => simp [hr] at h
      | Struct _ => simp [hd, TypeDesc.Kind] at hk
      | Ptr _ => simp [hd, TypeDesc.Kind] at hk
      | Array _ _ => simp [hd, TypeDesc.Kind] at hk
      | Map _ _ => simp [hd, TypeDesc.Kind] at hk
      | Chan _ => simp [hd, TypeDesc.Kind] at hk
      | Basic k => cases k <;> simp [hd, TypeDesc.Kind, BasicKind.toKind] at hk
    · rw [rangeLoop_cons_other _ _ _ _ _ _ hk] at h
      unfold referenceLoop
      have hc : collectionElem false (env fld.typ) = none := by
        cases hd : env fld.typ <;> simp [collectionElem]
        simp [hd, TypeDesc.Kind] at hk
      simp only [hc]
      exact ihl L h

theorem autoPreloadsInternal_refines (env : TypeEnv) :
    ∀ (fuel : Nat) (m m' : Model) (pfx : String) (i : Nat) (L : List String),
      (∀ x, exportedFields env fuel m = .ok x → exportedFields env fuel m' = .ok x) →
      autoPreloadsInternal env fuel m pfx i = .ok L →
      referencePaths false env fuel m' pfx = .ok L := by
  intro fuel
  induction fuel with
  | zero =>
    intro m m' pfx i L _ h
    by_cases hi : i ≤ maxRecursion
    · simp [autoPreloadsInternal_zero env m pfx i hi] at h
    · simp [autoPreloadsInternal_ceiling env 0 m pfx i (Nat.lt_of_not_le hi)] at h
  | succ f ih =>
    intro m m' pfx i L hm h
    by_cases hi : i ≤ maxRecursion
    · rw [autoPreloadsInternal_succ env f m pfx i hi] at h
      cases he : exportedFields env (f + 1) m with
      | ok flds =>
        simp only [he] at h
        unfold referencePaths
        simp only [hm flds he]
        refine rangeLoop_refines env f i pfx ?_ flds L h
        intro t e p sub hte hsub
        refine ih (.type t) (.type e) p (i + 1) sub ?_ hsub
        intro x hx
        cases f with
        | zero => simp [exportedFields, Model.typ, unwrapLoop] at hx
        | succ g =>
          rw [exportedFields_slice env g t e hte] at hx
          exact exportedFields_mono env g (g + 1) (Nat.le_succ g) _ x hx
      | abort e => simp [he] at h
      | timeout => simp [he] at h
    · simp [autoPreloadsInternal_ceiling env (f + 1) m pfx i (Nat.lt_of_not_le hi)] at h

/-- C1 (as amended). Whenever `autoPreloads` returns normally, its result is
the depth-first pre-order reference list in which a collection field is a field
of slice kind: the concatenation over `exportedFields` of the model, in
declaration order, of nothing for a field that is not of slice kind and of
`pfx+name` followed by the list of the element type under `pfx+name+"."` for a
field of slice kind. For the types of `Test_AutopreloadingFields` the result is
`Children`, `Children.ChildrenT2`, `Children.ChildrenT2.ChildrenT3`; for
`Author` of the test models, whose embedded `gorm.Model`, scalar and struct
fields add nothing, it is `Posts`, `Posts.Images`, `Posts.Videos`. A field that
is not of slice kind is skipped whatever the recursive call would do. -/
theorem autoPreloads_refines_reference :
    (∀ (env : TypeEnv) (fuel : Nat) (m : Model) (L : List String),
      autoPreloads env fuel m = .ok L → referencePaths false env fuel m "" = .ok L) ∧
    autoPreloads testEnv 10 (.value 12)
      = .ok ["Children", "Children.ChildrenT2", "Children.ChildrenT2.ChildrenT3"] ∧
    autoPreloads blogEnv 10 (.value 12) = .ok ["Posts", "Posts.Images", "Posts.Videos"] ∧
    (∀ (env : TypeEnv) (recur : Model → String → Res (List String)) (pfx : String)
      (fld : fieldInfo) (rest : List fieldInfo) (out : List String),
      (env fld.typ).Kind ≠ Kind.Slice →
      rangeLoop env recur pfx (fld :: rest) out = rangeLoop env recur pfx rest out) := by
  refine ⟨?_, by decide, by decide, ?_⟩
  · intro env fuel m L h
    exact autoPreloadsInternal_refines env fuel m m "" 0 L (fun _ hx => hx) h
  · intro env recur pfx fld rest out hk
    exact rangeLoop_cons_other env recur pfx fld rest out hk

theorem autoPreloads_refines_reference_witness :
    referencePaths false testEnv 10 (.value 12) ""
      = .ok ["Children", "Children.ChildrenT2", "Children.ChildrenT2.ChildrenT3"] ∧
    rangeLoop testEnv (fun _ _ => .abort .nilDeref) "" [⟨"Foo", 9⟩] []
      = rangeLoop testEnv (fun _ _ => .abort .nilDeref) "" [] [] :=
  ⟨autoPreloads_refines_reference.1 testEnv 10 (.value 12) _ (by decide),
    autoPreloads_refines_reference.2.2.2 testEnv (fun _ _ => .abort .nilDeref) ""
      ⟨"Foo", 9⟩ [] [] (by decide)⟩

/-- C1 as stated fails: with arrays counted as collections, as the
specification defines them, the reference list of `Model{F [3]Child}` holds
`F` and `F.Items`, and `autoPreloads` returns the empty list. -/
theorem reference_with_arrays_differs :
    ¬ (∀ (env : TypeEnv) (fuel : Nat) (m : Model) (L : List String),
      autoPreloads env fuel m = .ok L → referencePaths true env fuel m "" = .ok L) := by
  intro h
  have h1 := h arrayEnv 10 (.value 0) [] (by decide)
  revert h1
  decide

/-! ## C3: `exportedFields` on a struct type -/

theorem exportedFields_zero (env : TypeEnv) (t : TypeId) :
    exportedFields env 0 (.type t) = .timeout := by
  simp [exportedFields, Model.typ, unwrapLoop]

theorem exportedFields_step (env : TypeEnv) (n : Nat) (t : TypeId) :
    exportedFields env (n + 1) (.type t)
      = match env t with
        | .Struct fields => .ok (includedFields fields)
        | .Ptr e => exportedFields env n (.type e)
        | .Slice e => exportedFields env n (.type e)
        | .Array _ e => exportedFields env n (.type e)
        | _ => .ok [] := by
  cases hd : env t <;> simp [exportedFields, Model.typ, unwrapLoop, hd, fieldLoop_eq]

theorem exportedFields_value (env : TypeEnv) (n : Nat) (t : TypeId) :
    exportedFields env n (.value t) = exportedFields env n (.type t) := rfl

/-- C3. For a struct type, given as a type or as a value of it,
`exportedFields` returns exactly the fields that are exported and carry no
`ezg` tag equal, ignoring letter case, to `no-preload` or `nopreload`, as
(name, declared type) pairs in declaration order, nothing sorted and nothing
dropped besides. `ezg:"NoPreload"` and `ezg:"NO-PRELOAD"` exclude a field;
another `ezg` value, or the same word under another key, does not. -/
theorem exportedFields_struct :
    (∀ (env : TypeEnv) (fuel : Nat) (t : TypeId) (fields : List StructField),
      env t = .Struct fields →
      exportedFields env (fuel + 1) (.type t)
        = .ok ((fields.filter (fun f => exported f && !optedOut f)).map
            (fun f => { name := f.Name, typ := f.Typ })) ∧
      exportedFields env (fuel + 1) (.value t) = exportedFields env (fuel + 1) (.type t)) ∧
    (∀ (name : String) (typ : TypeId),
      optedOut ⟨name, "", typ, [("ezg", "NoPreload")]⟩ = true ∧
      optedOut ⟨name, "", typ, [("ezg", "NO-PRELOAD")]⟩ = true ∧
      optedOut ⟨name, "", typ, [("json", "x"), ("ezg", "nopreload")]⟩ = true ∧
      optedOut ⟨name, "", typ, [("ezg", "preload")]⟩ = false ∧
      optedOut ⟨name, "", typ, [("json", "nopreload")]⟩ = false ∧
      optedOut ⟨name, "", typ, []⟩ = false) := by
  constructor
  · intro env fuel t fields h
    refine ⟨?_, rfl⟩
    rw [exportedFields_step, h]
    rfl
  · intro name typ
    exact ⟨rfl, rfl, rfl, rfl, rfl, rfl⟩

theorem exportedFields_struct_witness :
    exportedFields testEnv 1 (.type 8) = .ok [{ name := "Foo", typ := 9 }] :=
  ((exportedFields_struct.1 testEnv 0 8 _ rfl).1).trans (by decide)

/-! ## C4: opted-out fields and their subtrees -/

theorem exportedFields_agree (env env' : TypeEnv) (h : EnvAgree env env') :
    ∀ (n : Nat) (m : Model), exportedFields env n m = exportedFields env' n m := by
  intro n
  induction n with
  | zero =>
    intro m
    cases m <;> simp [exportedFields, Model.typ, unwrapLoop]
  | succ n ih =>
    intro m
    cases m with
    | nil => simp [exportedFields, Model.typ]
    | value t =>
      rw [exportedFields_value, exportedFields_value]
      have ht := h t
      rw [exportedFields_step, exportedFields_step]
      cases hd : env t <;> cases hd' : env' t <;> simp [hd, hd'] at ht ⊢
      all_goals first | exact ht | (subst ht; exact ih _) | (obtain ⟨_, rfl⟩ := ht; exact ih _)
    | type t =>
      have ht := h t
      rw [exportedFields_step, exportedFields_step]
      cases hd : env t <;> cases hd' : env' t <;> simp [hd, hd'] at ht ⊢
      all_goals first | exact ht | (subst ht; exact ih _) | (obtain ⟨_, rfl⟩ := ht; exact ih _)

theorem EnvAgree.kind {env env' : TypeEnv} (h : EnvAgree env env') (t : TypeId) :
    (env t).Kind = (env' t).Kind := by
  have ht := h t
  cases hd : env t <;> cases hd' : env' t <;> simp [hd, hd'] at ht ⊢ <;> simp [TypeDesc.Kind, ht]

theorem rangeLoop_agree (env env' : TypeEnv) (h : EnvAgree env env')
    (recur : Model → String → Res (List String)) (pfx : String) :
    ∀ (flds : List fieldInfo) (out : List String),
      rangeLoop env recur pfx flds out = rangeLoop env' recur pfx flds out := by
  intro flds
  induction flds with
  | nil => intro out; simp [rangeLoop]
  | cons fld rest ih =>
    intro out
    unfold rangeLoop
    rw [h.kind fld.typ]
    by_cases hk : (env' fld.typ).Kind = Kind.Slice
    · simp only [hk, if_true]
      cases recur (.type fld.typ) (pfx ++ fld.name ++ ".") with
      | ok sub => exact ih _
      | abort e => rfl
      | timeout => rfl
    · simp only [hk, if_false]
      exact ih out

theorem autoPreloadsInternal_agree (env env' : TypeEnv) (h : EnvAgree env env') :
    ∀ (fuel : Nat) (m : Model) (pfx : String) (i : Nat),
      autoPreloadsInternal env fuel m pfx i = autoPreloadsInternal env' fuel m pfx i := by
  intro fuel
  induction fuel with
  | zero =>
    intro m pfx i
    unfold autoPreloadsInternal
    rfl
  | succ f ih =>
    intro m pfx i
    by_cases hi : i ≤ maxRecursion
    · rw [autoPreloadsInternal_succ env f m pfx i hi, autoPreloadsInternal_succ env' f m pfx i hi,
        exportedFields_agree env env' h]
      cases exportedFields env' (f + 1) m with
      | ok flds =>
        have hr : (fun m p => autoPreloadsInternal env f m p (i + 1))
            = (fun m p => autoPreloadsInternal env' f m p (i + 1)) := by
          funext m p
          exact ih m p (i + 1)
        simp only [hr]
        exact rangeLoop_agree env env' h _ pfx flds []
      | abort e => rfl
      | timeout => rfl
    · rw [autoPreloadsInternal_ceiling env (f + 1) m pfx i (Nat.lt_of_not_le hi),
        autoPreloadsInternal_ceiling env' (f + 1) m pfx i (Nat.lt_of_not_le hi)]

theorem includedFields_delete (fields : List StructField) :
    includedFields fields = includedFields (fields.filter (fun f => !optedOut f)) := by
  unfold includedFields
  rw [List.filter_filter]
  congr 1
  apply List.filter_congr
  intro f _
  cases exported f <;> cases optedOut f <;> rfl

theorem includedFields_retarget (g : TypeId → TypeId) (fields : List StructField) :
    includedFields fields
      = includedFields
          (fields.map (fun f => if optedOut f then { f with Typ := g f.Typ } else f)) := by
  induction fields with
  | nil => rfl
  | cons f rest ih =>
    unfold includedFields at ih ⊢
    by_cases ho : optedOut f = true
    · have ho2 : optedOut { f with Typ := g f.Typ } = true := ho
      simp only [List.map_cons, ho, if_true, List.filter_cons, ho2, Bool.not_true,
        Bool.and_false, Bool.false_eq_true, if_false]
      exact ih
    · have ho3 : optedOut f = false := by simpa using ho
      simp only [List.map_cons, ho3, Bool.false_eq_true, if_false, List.filter_cons,
        Bool.not_false, Bool.and_true]
      by_cases hc : exported f = true
      · simp only [hc, if_true, List.map_cons]
        rw [ih]
      · simp only [hc, if_false]
        exact ih

theorem deleteOptedOut_agree (env : TypeEnv) : EnvAgree env (deleteOptedOut env) := by
  intro t
  unfold deleteOptedOut
  cases hd : env t <;> simp
  exact includedFields_delete _

theorem retargetOptedOut_agree (g : TypeId → TypeId) (env : TypeEnv) :
    EnvAgree env (retargetOptedOut g env) := by
  intro t
  unfold retargetOptedOut
  cases hd : env t <;> simp
  exact includedFields_retarget g _

/-! ## C5: fields of array kind -/

theorem rangeLoop_append (env : TypeEnv) (recur : Model → String → Res (List String))
    (pfx : String) (a b : List fieldInfo) :
    ∀ (out : List String),
      rangeLoop env recur pfx (a ++ b) out
        = match rangeLoop env recur pfx a out with
          | .ok o => rangeLoop env recur pfx b o
          | .abort e => .abort e
          | .timeout => .timeout := by
  induction a with
  | nil => intro out; simp [rangeLoop]
  | cons fld rest ih =>
    intro out
    rw [List.cons_append]
    by_cases hk : (env fld.typ).Kind = Kind.Slice
    · rw [rangeLoop_cons_slice_acc _ _ _ _ _ _ hk, rangeLoop_cons_slice_acc _ _ _ _ _ _ hk]
      cases recur (.type fld.typ) (pfx ++ fld.name ++ ".") with
      | ok sub => exact ih _
      | abort e => rfl
      | timeout => rfl
    · rw [rangeLoop_cons_other _ _ _ _ _ _ hk, rangeLoop_cons_other _ _ _ _ _ _ hk]
      exact ih out

theorem includedFields_append (a b : List StructField) :
    includedFields (a ++ b) = includedFields a ++ includedFields b := by
  simp [includedFields]

theorem includedFields_cons_typ (f : StructField) (rest : List StructField) :
    includedFields (f :: rest) = includedFields rest ∨
    includedFields (f :: rest) = { name := f.Name, typ := f.Typ } :: includedFields rest := by
  unfold includedFields
  by_cases hc : (exported f && !optedOut f) = true
  · right; simp [List.filter_cons, hc]
  · left; simp [List.filter_cons, hc]

/-- C5 (as amended). A field of array kind is not a collection field for
`autoPreloadsInternal`: the outcome on a struct with such a field is the
outcome on the struct without it, so no path is emitted for the field and its
element type is not descended into. `Model{F [3]Child}` returns the empty
list. -/
theorem array_field_skipped :
    (∀ (env : TypeEnv) (fuel : Nat) (s s' : TypeId) (pre post : List StructField)
      (f : StructField) (pfx : String) (i : Nat),
      env s = .Struct (pre ++ f :: post) → env s' = .Struct (pre ++ post) →
      (env f.Typ).Kind = Kind.Array →
      autoPreloadsInternal env fuel (.type s) pfx i
        = autoPreloadsInternal env fuel (.type s') pfx i) ∧
    (∀ (fuel : Nat), autoPreloads arrayEnv (fuel + 1) (.value 0) = .ok []) := by
  constructor
  · intro env fuel s s' pre post f pfx i hs hs' hk
    cases fuel with
    | zero => unfold autoPreloadsInternal; rfl
    | succ n =>
      by_cases hi : i ≤ maxRecursion
      · rw [autoPreloadsInternal_succ env n _ pfx i hi, autoPreloadsInternal_succ env n _ pfx i hi,
          exportedFields_step, exportedFields_step, hs, hs']
        simp only []
        rw [includedFields_append, includedFields_append, rangeLoop_append, rangeLoop_append]
        cases rangeLoop env (fun m p => autoPreloadsInternal env n m p (i + 1)) pfx
            (includedFields pre) [] with
        | ok o =>
          simp only []
          rcases includedFields_cons_typ f post with h | h
          · rw [h]
          · rw [h]
            exact rangeLoop_cons_other _ _ _ _ _ _ (by simp [hk])
        | abort e => rfl
        | timeout => rfl
      · rw [autoPreloadsInternal_ceiling env (n + 1) _ pfx i (Nat.lt_of_not_le hi),
          autoPreloadsInternal_ceiling env (n + 1) _ pfx i (Nat.lt_of_not_le hi)]
  · intro fuel
    unfold autoPreloads
    rw [autoPreloadsInternal_succ _ _ _ _ _ (by decide), exportedFields_value,
      exportedFields_step]
    rfl

theorem array_field_skipped_witness :
    autoPreloadsInternal arrayEnv 5 (.type 0) "" 0
      = autoPreloadsInternal arrayEnv 5 (.type 6) "" 0 :=
  array_field_skipped.1 arrayEnv 5 0 6 [] [] ⟨"F", "", 1, []⟩ "" 0 rfl rfl rfl

/-- C5 as stated fails: `Model{F [3]Child}` has the exported field `F` of
array kind without opt-out annotation, and `autoPreloads` returns a list that
does not hold the path `F`. -/
theorem array_field_emits_no_path :
    ¬ (∀ (env : TypeEnv) (fuel : Nat) (t : TypeId) (fields : List StructField)
      (f : StructField) (L : List String),
      env t = .Struct fields → f ∈ fields → exported f = true → optedOut f = false →
      (env f.Typ).Kind = Kind.Array → autoPreloads env fuel (.type t) = .ok L →
      f.Name ∈ L) := by
  intro h
  have h1 := h arrayEnv 10 0 [⟨"F", "", 1, []⟩] ⟨"F", "", 1, []⟩ [] rfl
    (List.mem_singleton.mpr rfl) rfl rfl rfl (by decide)
  simp at h1

/-! ## C6: inputs that are not of a record type -/

/-- An input whose unwrapping ends at a type that is neither struct, pointer,
slice nor array gives the empty field list, and `autoPreloads` on it returns
the empty list. -/
theorem exportedFields_nonStruct (env : TypeEnv) (n : Nat) (m : Model) (t : TypeId)
    (hm : m.typ = some t) (h : unwrapLoop env (n + 1) t = .ok none) :
    exportedFields env (n + 1) m = .ok [] ∧ autoPreloads env (n + 1) m = .ok [] := by
  have h1 : exportedFields env (n + 1) m = .ok [] := by
    unfold exportedFields
    simp only [hm, h]
  refine ⟨h1, ?_⟩
  unfold autoPreloads
  rw [autoPreloadsInternal_succ _ _ _ _ _ (by decide), h1]
  rfl

/-- C6, at the failing input. For the nil interface `reflect.TypeOf` is nil
and `typ.Kind()` panics: `exportedFields` and `autoPreloads` abort, they do
not return the empty list. -/
theorem exportedFields_nil_aborts :
    (∀ (env : TypeEnv) (fuel : Nat), exportedFields env fuel .nil = .abort .nilDeref) ∧
    (∀ (env : TypeEnv) (fuel : Nat), autoPreloads env (fuel + 1) .nil = .abort .nilDeref) := by
  constructor
  · intro env fuel
    rfl
  · intro env fuel
    unfold autoPreloads
    rw [autoPreloadsInternal_succ _ _ _ _ _ (by decide)]
    rfl

/-! ## C7, C8: the recursion ceiling and termination -/

theorem rangeLoop_ok_recur (env : TypeEnv) (recur : Model → String → Res (List String))
    (pfx : String) :
    ∀ (flds : List fieldInfo) (out L : List String),
      rangeLoop env recur pfx flds out = .ok L →
      ∀ fld ∈ flds, (env fld.typ).Kind = Kind.Slice →
        ∃ sub, recur (.type fld.typ) (pfx ++ fld.name ++ ".") = .ok sub := by
  intro flds
  induction flds with
  | nil => intro out L _ fld hf; simp at hf
  | cons hd rest ih =>
    intro out L h fld hf hk
    by_cases hkh : (env hd.typ).Kind = Kind.Slice
    · rw [rangeLoop_cons_slice_acc _ _ _ _ _ _ hkh] at h
      cases hr : recur (.type hd.typ) (pfx ++ hd.name ++ ".") with
      | ok sub =>
        rw [hr] at h
        rcases List.mem_cons.mp hf with rfl | hmem
        · exact ⟨sub, hr⟩
        · exact ih _ L h fld hmem hk
      | abort e => rw [hr] at h; simp at h
      | timeout => rw [hr] at h; simp at h
    · rw [rangeLoop_cons_other _ _ _ _ _ _ hkh] at h
      rcases List.mem_cons.mp hf with rfl | hmem
      · exact absurd hk hkh
      · exact ih _ L h fld hmem hk

theorem rangeLoop_abort_recur (env : TypeEnv) (recur : Model → String → Res (List String))
    (pfx : String) :
    ∀ (flds : List fieldInfo) (out : List String) (e : Abort),
      rangeLoop env recur pfx flds out = .abort e →
      ∃ fld ∈ flds, recur (.type fld.typ) (pfx ++ fld.name ++ ".") = .abort e := by
  intro flds
  induction flds with
  | nil => intro out e h; simp [rangeLoop] at h
  | cons hd rest ih =>
    intro out e h
    by_cases hkh : (env hd.typ).Kind = Kind.Slice
    · rw [rangeLoop_cons_slice_acc _ _ _ _ _ _ hkh] at h
      cases hr : recur (.type hd.typ) (pfx ++ hd.name ++ ".") with
      | ok sub =>
        rw [hr] at h
        obtain ⟨fld, hm, hf⟩ := ih _ e h
        exact ⟨fld, List.mem_cons_of_mem _ hm, hf⟩
      | abort e2 =>
        rw [hr] at h
        simp only [Res.abort.injEq] at h
        exact ⟨hd, List.mem_cons_self _ _, h ▸ hr⟩
      | timeout => rw [hr] at h; simp at h
    · rw [rangeLoop_cons_other _ _ _ _ _ _ hkh] at h
      obtain ⟨fld, hm, hf⟩ := ih _ e h
      exact ⟨fld, List.mem_cons_of_mem _ hm, hf⟩

theorem rangeLoop_ne_timeout (env : TypeEnv) (recur : Model → String → Res (List String))
    (pfx : String) :
    ∀ (flds : List fieldInfo) (out : List String),
      (∀ fld ∈ flds, recur (.type fld.typ) (pfx ++ fld.name ++ ".") ≠ .timeout) →
      rangeLoop env recur pfx flds out ≠ .timeout := by
  intro flds
  induction flds with
  | nil => intro out _; simp [rangeLoop]
  | cons hd rest ih =>
    intro out h
    have hrest : ∀ fld ∈ rest, recur (.type fld.typ) (pfx ++ fld.name ++ ".") ≠ .timeout :=
      fun fld hm => h fld (List.mem_cons_of_mem _ hm)
    by_cases hkh : (env hd.typ).Kind = Kind.Slice
    · rw [rangeLoop_cons_slice_acc _ _ _ _ _ _ hkh]
      cases hr : recur (.type hd.typ) (pfx ++ hd.name ++ ".") with
      | ok sub => exact ih _ hrest
      | abort e => simp
      | timeout => exact absurd hr (h hd (List.mem_cons_self _ _))
    · rw [rangeLoop_cons_other _ _ _ _ _ _ hkh]
      exact ih _ hrest

theorem autoPreloadsInternal_value (env : TypeEnv) (fuel : Nat) (t : TypeId) (pfx : String)
    (i : Nat) :
    autoPreloadsInternal env fuel (.value t) pfx i
      = autoPreloadsInternal env fuel (.type t) pfx i := by
  cases fuel with
  | zero => unfold autoPreloadsInternal; rfl
  | succ n =>
    conv_lhs => unfold autoPreloadsInternal
    conv_rhs => unfold autoPreloadsInternal
    rfl

/-- An abort of `autoPreloadsInternal` entered with a counter of at most 201
is the ceiling abort raised at counter 201, or the nil dereference of a nil
model. -/
theorem autoPreloadsInternal_abort (env : TypeEnv) :
    ∀ (fuel : Nat) (m : Model) (pfx : String) (i : Nat) (e : Abort),
      i ≤ maxRecursion + 1 → autoPreloadsInternal env fuel m pfx i = .abort e →
      e = .maxRecursion (maxRecursion + 1) ∨ (m.typ = none ∧ e = .nilDeref) := by
  intro fuel
  induction fuel with
  | zero =>
    intro m pfx i e hi h
    by_cases hle : i ≤ maxRecursion
    · simp [autoPreloadsInternal_zero env m pfx i hle] at h
    · have hi2 : i = maxRecursion + 1 := by omega
      rw [autoPreloadsInternal_ceiling env 0 m pfx i (Nat.lt_of_not_le hle)] at h
      simp only [Res.abort.injEq] at h
      left; rw [← h, hi2]
  | succ n ih =>
    intro m pfx i e hi h
    by_cases hle : i ≤ maxRecursion
    · rw [autoPreloadsInternal_succ env n m pfx i hle] at h
      cases he : exportedFields env (n + 1) m with
      | ok flds =>
        simp only [he] at h
        obtain ⟨fld, _, hf⟩ := rangeLoop_abort_recur env _ pfx flds [] e h
        rcases ih (.type fld.typ) _ (i + 1) e (by omega) hf with h1 | ⟨h2, _⟩
        · exact Or.inl h1
        · simp [Model.typ] at h2
      | abort e2 =>
        simp only [he, Res.abort.injEq] at h
        subst h
        exact Or.inr (exportedFields_abort env _ m e2 he)
      | timeout => simp [he] at h
    · have hi2 : i = maxRecursion + 1 := by omega
      rw [autoPreloadsInternal_ceiling env (n + 1) m pfx i (Nat.lt_of_not_le hle)] at h
      simp only [Res.abort.injEq] at h
      left; rw [← h, hi2]

theorem unwrapLoop_reaches (env : TypeEnv) (a s : TypeId) (fields : List StructField)
    (hr : Reaches env a s) (hs : env s = .Struct fields) :
    ∀ (n : Nat) (x : Option (List StructField)),
      unwrapLoop env n a = .ok x → x = some fields := by
  induction hr with
  | here h =>
    intro n x hx
    cases n with
    | zero => simp [unwrapLoop] at hx
    | succ n => simp [unwrapLoop, hs] at hx; exact hx.symm
  | ptr h _ ih =>
    intro n x hx
    cases n with
    | zero => simp [unwrapLoop] at hx
    | succ n => rw [unwrapLoop, h] at hx; exact ih hs n x hx
  | slice h _ ih =>
    intro n x hx
    cases n with
    | zero => simp [unwrapLoop] at hx
    | succ n => rw [unwrapLoop, h] at hx; exact ih hs n x hx
  | array h _ ih =>
    intro n x hx
    cases n with
    | zero => simp [unwrapLoop] at hx
    | succ n => rw [unwrapLoop, h] at hx; exact ih hs n x hx

theorem exportedFields_reaches (env : TypeEnv) (a s : TypeId) (fields : List StructField)
    (hr : Reaches env a s) (hs : env s = .Struct fields) (n : Nat) (flds : List fieldInfo)
    (h : exportedFields env n (.type a) = .ok flds) : flds = includedFields fields := by
  unfold exportedFields at h
  simp only [Model.typ] at h
  cases hu : unwrapLoop env n a with
  | ok x =>
    have hx := unwrapLoop_reaches env a s fields hr hs n x hu
    subst hx
    rw [hu] at h
    simp only [Res.ok.injEq, fieldLoop_eq, List.nil_append] at h
    exact h.symm
  | abort e => rw [hu] at h; simp at h
  | timeout => rw [hu] at h; simp at h

theorem mem_includedFields (fields : List StructField) (f : StructField) (hf : f ∈ fields)
    (he : exported f = true) (ho : optedOut f = false) :
    ({ name := f.Name, typ := f.Typ } : fieldInfo) ∈ includedFields fields := by
  unfold includedFields
  refine List.mem_map.mpr ⟨f, List.mem_filter.mpr ⟨hf, ?_⟩, rfl⟩
  simp [he, ho]

/-- A model that unwraps to a self-referential struct never returns a list. -/
theorem selfReferential_never_ok (env : TypeEnv) (s : TypeId) (hs : SelfReferential env s) :
    ∀ (d fuel : Nat) (a : TypeId) (pfx : String) (i : Nat) (L : List String),
      i + d = maxRecursion + 1 → Reaches env a s →
      autoPreloadsInternal env fuel (.type a) pfx i ≠ .ok L := by
  obtain ⟨fields, f, hfs, hmem, hexp, hopt, hkind, hreach⟩ := hs
  intro d
  induction d with
  | zero =>
    intro fuel a pfx i L hi _
    rw [autoPreloadsInternal_ceiling env fuel _ pfx i (by omega)]
    simp
  | succ d ih =>
    intro fuel a pfx i L hi hr h
    have hle : i ≤ maxRecursion := by omega
    cases fuel with
    | zero => simp [autoPreloadsInternal_zero env _ pfx i hle] at h
    | succ n =>
      rw [autoPreloadsInternal_succ env n _ pfx i hle] at h
      cases he : exportedFields env (n + 1) (.type a) with
      | ok flds =>
        simp only [he] at h
        have hflds := exportedFields_reaches env a s fields hr hfs (n + 1) flds he
        have hin : ({ name := f.Name, typ := f.Typ } : fieldInfo) ∈ flds :=
          hflds ▸ mem_includedFields fields f hmem hexp hopt
        obtain ⟨sub, hsub⟩ := rangeLoop_ok_recur env _ pfx flds [] L h _ hin hkind
        exact ih n f.Typ _ (i + 1) sub (by omega) hreach hsub
      | abort e => simp [he] at h
      | timeout => simp [he] at h

theorem exists_bound_of_forall (P : TypeId → Nat → Prop)
    (h : ∀ t, ∃ N, ∀ fuel, N ≤ fuel → P t fuel) :
    ∀ (flds : List fieldInfo), ∃ N, ∀ fld ∈ flds, ∀ fuel, N ≤ fuel → P fld.typ fuel := by
  intro flds
  induction flds with
  | nil => exact ⟨0, fun fld hf => by simp at hf⟩
  | cons hd rest ih =>
    obtain ⟨N1, h1⟩ := h hd.typ
    obtain ⟨N2, h2⟩ := ih
    refine ⟨max N1 N2, ?_⟩
    intro fld hf fuel hfuel
    rcases List.mem_cons.mp hf with rfl | hm
    · exact h1 fuel (le_trans (le_max_left _ _) hfuel)
    · exact h2 fld hm fuel (le_trans (le_max_right _ _) hfuel)

/-- When the unwrapping loop leaves every type, enough fuel lets
`autoPreloadsInternal` finish: the ceiling bounds the nesting of calls. -/
theorem autoPreloadsInternal_terminates (env : TypeEnv) (hu : UnwrapTerminates env) :
    ∀ (d : Nat) (t : TypeId), ∃ N, ∀ fuel, N ≤ fuel → ∀ (pfx : String) (i : Nat),
      maxRecursion + 1 ≤ i + d → autoPreloadsInternal env fuel (.type t) pfx i ≠ .timeout := by
  intro d
  induction d with
  | zero =>
    intro t
    refine ⟨0, ?_⟩
    intro fuel _ pfx i hi
    rw [autoPreloadsInternal_ceiling env fuel _ pfx i (by omega)]
    simp
  | succ d ih =>
    intro t
    obtain ⟨n0, hn0⟩ := hu t
    have hex : ∃ flds, exportedFields env n0 (.type t) = .ok flds := by
      unfold exportedFields
      simp only [Model.typ]
      cases hx : unwrapLoop env n0 t with
      | ok x => cases x <;> simp
      | abort e => exact absurd hx (unwrapLoop_ne_abort env n0 t e)
      | timeout => exact absurd hx hn0
    obtain ⟨flds, hflds⟩ := hex
    obtain ⟨N', hN'⟩ := exists_bound_of_forall
      (fun t fuel => ∀ (pfx : String) (i : Nat), maxRecursion + 1 ≤ i + d →
        autoPreloadsInternal env fuel (.type t) pfx i ≠ .timeout) ih flds
    refine ⟨max n0 (N' + 1), ?_⟩
    intro fuel hfuel pfx i hi
    by_cases hle : i ≤ maxRecursion
    · have h1 : N' + 1 ≤ fuel := le_trans (le_max_right _ _) hfuel
      have h0 : n0 ≤ fuel := le_trans (le_max_left _ _) hfuel
      obtain ⟨n, rfl⟩ : ∃ n, fuel = n + 1 := ⟨fuel - 1, by omega⟩
      rw [autoPreloadsInternal_succ env n _ pfx i hle,
        exportedFields_mono env n0 (n + 1) h0 _ flds hflds]
      simp only []
      apply rangeLoop_ne_timeout
      intro fld hf
      exact hN' fld hf n (by omega) _ (i + 1) (by omega)
    · rw [autoPreloadsInternal_ceiling env fuel _ pfx i (Nat.lt_of_not_le hle)]
      simp

/-- When the unwrapping loop leaves every type of the table, `autoPreloads`
finishes on every model with enough fuel, by a return or by an abort. -/
theorem autoPreloads_terminates (env : TypeEnv) (hu : UnwrapTerminates env) (m : Model) :
    ∃ N, ∀ fuel, N ≤ fuel → autoPreloads env fuel m ≠ .timeout := by
  cases m with
  | nil =>
    refine ⟨1, ?_⟩
    intro fuel hfuel
    obtain ⟨n, rfl⟩ : ∃ n, fuel = n + 1 := ⟨fuel - 1, by omega⟩
    unfold autoPreloads
    rw [autoPreloadsInternal_succ _ _ _ _ _ (by decide)]
    simp [exportedFields, Model.typ]
  | value t =>
    obtain ⟨N, hN⟩ := autoPreloadsInternal_terminates env hu (maxRecursion + 1) t
    refine ⟨N, ?_⟩
    intro fuel hfuel
    unfold autoPreloads
    rw [autoPreloadsInternal_value]
    exact hN fuel hfuel "" 0 (by omega)
  | type t =>
    obtain ⟨N, hN⟩ := autoPreloadsInternal_terminates env hu (maxRecursion + 1) t
    exact ⟨N, fun fuel hfuel => hN fuel hfuel "" 0 (by omega)⟩

theorem autoPreloads_typ (env : TypeEnv) (fuel : Nat) (m : Model) (a : TypeId)
    (hm : m.typ = some a) : autoPreloads env fuel m = autoPreloads env fuel (.type a) := by
  cases m with
  | nil => simp [Model.typ] at hm
  | value t =>
    simp only [Model.typ, Option.some.injEq] at hm
    subst hm
    exact autoPreloadsInternal_value env fuel t "" 0
  | type t =>
    simp only [Model.typ, Option.some.injEq] at hm
    subst hm
    rfl

/-- The recursion ceiling. `autoPreloadsInternal` raises the ceiling abort at
the very call it is entered with counter `i` exactly when `i > 200`, whatever
the model, the type table and the fuel, so before anything is introspected. A
model that
unwraps to a struct that is self-referential through an exported slice field
without opt-out annotation never returns a list: for every fuel the run either
has not finished or has aborted at the call with counter 201, and when the
unwrapping loop leaves every type of the table, every run with enough fuel
aborts at the call with counter 201. `Node{Children []Node}` and
`Node{Children []*Node}` do so. -/
theorem recursion_ceiling :
    (∀ (env : TypeEnv) (fuel : Nat) (m : Model) (pfx : String) (i : Nat),
      autoPreloadsInternal env fuel m pfx i = .abort (.maxRecursion i) ↔ 200 < i) ∧
    (∀ (env : TypeEnv) (s a : TypeId) (m : Model),
      SelfReferential env s → m.typ = some a → Reaches env a s →
      (∀ (fuel : Nat),
        (∀ L, autoPreloads env fuel m ≠ .ok L) ∧
        (autoPreloads env fuel m = .timeout ∨
          autoPreloads env fuel m = .abort (.maxRecursion 201))) ∧
      (UnwrapTerminates env →
        ∃ N, ∀ fuel, N ≤ fuel → autoPreloads env fuel m = .abort (.maxRecursion 201))) ∧
    autoPreloads nodeEnv 202 (.value 0) = .abort (.maxRecursion 201) ∧
    autoPreloads nodePtrEnv 203 (.value 0) = .abort (.maxRecursion 201) := by
  refine ⟨?_, ?_, by set_option maxRecDepth 100000 in decide,
    by set_option maxRecDepth 100000 in decide⟩
  · intro env fuel m pfx i
    constructor
    · intro h
      by_contra hle
      have hle' : i ≤ maxRecursion := by unfold maxRecursion; omega
      rcases autoPreloadsInternal_abort env fuel m pfx i _ (by omega) h with h1 | ⟨_, h2⟩
      · simp only [Abort.maxRecursion.injEq] at h1
        omega
      · simp at h2
    · intro h
      exact autoPreloadsInternal_ceiling env fuel m pfx i h
  · intro env s a m hs hm hr
    have hnever : ∀ (fuel : Nat) (L : List String), autoPreloads env fuel m ≠ .ok L := by
      intro fuel L
      rw [autoPreloads_typ env fuel m a hm]
      exact selfReferential_never_ok env s hs (maxRecursion + 1) fuel a "" 0 L (by omega) hr
    have hshape : ∀ (fuel : Nat), autoPreloads env fuel m = .timeout ∨
        autoPreloads env fuel m = .abort (.maxRecursion 201) := by
      intro fuel
      cases hres : autoPreloads env fuel m with
      | ok L => exact absurd hres (hnever fuel L)
      | abort e =>
        right
        rw [autoPreloads_typ env fuel m a hm] at hres
        rcases autoPreloadsInternal_abort env fuel _ "" 0 e (by omega) hres with h1 | ⟨h2, _⟩
        · rw [h1]; rfl
        · simp [Model.typ] at h2
      | timeout => exact Or.inl rfl
    refine ⟨fun fuel => ⟨hnever fuel, hshape fuel⟩, ?_⟩
    intro hu
    obtain ⟨N, hN⟩ := autoPreloads_terminates env hu m
    refine ⟨N, ?_⟩
    intro fuel hfuel
    rcases hshape fuel with h | h
    · exact absurd h (hN fuel hfuel)
    · exact h

theorem nodeEnv_unwrapTerminates : UnwrapTerminates nodeEnv := by
  intro t
  refine ⟨2, ?_⟩
  match t with
  | 0 => simp [unwrapLoop, nodeEnv]
  | 1 => simp [unwrapLoop, nodeEnv]
  | n + 2 => simp [unwrapLoop, nodeEnv]

theorem recursion_ceiling_witness :
    ∃ N, ∀ fuel, N ≤ fuel →
      autoPreloads nodeEnv fuel (.value 0) = .abort (.maxRecursion 201) :=
  (recursion_ceiling.2.1 nodeEnv 0 0 (.value 0)
    ⟨_, ⟨"Children", "", 1, []⟩, rfl, List.mem_singleton.mpr rfl, rfl, rfl, rfl,
      Reaches.slice (show nodeEnv 1 = .Slice 0 from rfl)
        (Reaches.here (show nodeEnv 0 = .Struct [⟨"Children", "", 1, []⟩] from rfl))⟩
    rfl (Reaches.here (show nodeEnv 0 = .Struct [⟨"Children", "", 1, []⟩] from rfl))).2
    nodeEnv_unwrapTerminates

theorem unwrapLoop_selfSlice (n : Nat) : unwrapLoop selfSliceEnv n 0 = .timeout := by
  induction n with
  | zero => rfl
  | succ n ih => rw [unwrapLoop]; exact ih

theorem unwrapLoop_selfPtr (n : Nat) : unwrapLoop selfPtrEnv n 0 = .timeout := by
  induction n with
  | zero => rfl
  | succ n ih => rw [unwrapLoop]; exact ih

theorem autoPreloadsInternal_selfSlice_field (n : Nat) (pfx : String) :
    autoPreloadsInternal selfSliceEnv n (.type 2) pfx 1 = .timeout := by
  cases n with
  | zero => rfl
  | succ k =>
    rw [autoPreloadsInternal_succ _ _ _ _ _ (by decide),
      exportedFields_slice selfSliceEnv k 2 0 rfl]
    simp [exportedFields, Model.typ, unwrapLoop_selfSlice]

/-- C8, at the failing inputs. For `type S []S` and for `type P *P` the
unwrapping loop of `exportedFields` never leaves the type: whatever the fuel,
`exportedFields` and `autoPreloads` have not finished, and neither has
`autoPreloads` on `Box{Bad []S}`, which has `S` as the element type of a
field. The depth ceiling is never reached. -/
theorem unwrap_loop_diverges :
    (∀ (fuel : Nat), exportedFields selfSliceEnv fuel (.value 0) = .timeout) ∧
    (∀ (fuel : Nat), autoPreloads selfSliceEnv fuel (.value 0) = .timeout) ∧
    (∀ (fuel : Nat), exportedFields selfPtrEnv fuel (.value 0) = .timeout) ∧
    (∀ (fuel : Nat), autoPreloads selfPtrEnv fuel (.value 0) = .timeout) ∧
    (∀ (fuel : Nat), autoPreloads selfSliceEnv fuel (.value 4) = .timeout) := by
  have h1 : ∀ (fuel : Nat), exportedFields selfSliceEnv fuel (.value 0) = .timeout := by
    intro fuel
    simp [exportedFields, Model.typ, unwrapLoop_selfSlice]
  have h3 : ∀ (fuel : Nat), exportedFields selfPtrEnv fuel (.value 0) = .timeout := by
    intro fuel
    simp [exportedFields, Model.typ, unwrapLoop_selfPtr]
  refine ⟨h1, ?_, h3, ?_, ?_⟩
  · intro fuel
    unfold autoPreloads
    cases fuel with
    | zero => rfl
    | succ n => rw [autoPreloadsInternal_succ _ _ _ _ _ (by decide), h1]
  · intro fuel
    unfold autoPreloads
    cases fuel with
    | zero => rfl
    | succ n => rw [autoPreloadsInternal_succ _ _ _ _ _ (by decide), h3]
  · intro fuel
    unfold autoPreloads
    cases fuel with
    | zero => rfl
    | succ n =>
      rw [autoPreloadsInternal_succ _ _ _ _ _ (by decide), exportedFields_value,
        exportedFields_step]
      have hflds : includedFields [⟨"Bad", "", 2, []⟩] = [⟨"Bad", 2⟩] := by decide
      simp only [selfSliceEnv, hflds]
      rw [rangeLoop_cons_slice_acc _ _ _ _ _ _ (by rfl)]
      simp only [Nat.zero_add, autoPreloadsInternal_selfSlice_field]

/-- C7, at the failing input. `Holder{Bad []S; Children []Holder}` with
`type S []S` is self-referential through its exported slice field `Children`,
which has no opt-out annotation, and `autoPreloads` on it does not abort:
whatever the fuel the run has not finished, since the call for `Bad` at
counter 1 never leaves the unwrapping loop of `exportedFields`. -/
theorem ceiling_not_reached :
    SelfReferential selfSliceEnv 1 ∧
    (∀ (fuel : Nat), autoPreloads selfSliceEnv fuel (.value 1) = .timeout) := by
  constructor
  · exact ⟨_, ⟨"Children", "", 3, []⟩, rfl, by simp, rfl, rfl, rfl,
      Reaches.slice (show selfSliceEnv 3 = .Slice 1 from rfl)
        (Reaches.here (show selfSliceEnv 1
          = .Struct [⟨"Bad", "", 2, []⟩, ⟨"Children", "", 3, []⟩] from rfl))⟩
  · intro fuel
    unfold autoPreloads
    cases fuel with
    | zero => rfl
    | succ n =>
      rw [autoPreloadsInternal_succ _ _ _ _ _ (by decide), exportedFields_value,
        exportedFields_step]
      have hflds : includedFields [⟨"Bad", "", 2, []⟩, ⟨"Children", "", 3, []⟩]
          = [⟨"Bad", 2⟩, ⟨"Children", 3⟩] := by decide
      simp only [selfSliceEnv, hflds]
      rw [rangeLoop_cons_slice_acc _ _ _ _ _ _ (by rfl)]
      simp only [Nat.zero_add, autoPreloadsInternal_selfSlice_field]

/-! ## C10: the multi-preload consistency check -/

theorem preloadEach_eq {F : Type} (a : List String) (qry : DB F) :
    preloadEach a qry = qry ++ a.map (fun x => { query := x, args := [] }) := by
  induction a generalizing qry with
  | nil => simp [preloadEach]
  | cons x rest ih => simp [preloadEach, ih, DB.Preload]

theorem preloadEachWith_eq {F : Type} (a : List String) :
    ∀ (b : List (Option F)) (qry : DB F), a.length = b.length →
      preloadEachWith a b qry
        = { qry := qry ++ List.zipWith (fun x f => { query := x, args := f.toList }) a b,
            result := .ok () } := by
  induction a with
  | nil => intro b qry _; simp [preloadEachWith]
  | cons x rest ih =>
    intro b qry h
    cases b with
    | nil => simp at h
    | cons f fs =>
      have h' : rest.length = fs.length := by simpa using h
      cases f with
      | none => simp [preloadEachWith, ih fs _ h', DB.Preload]
      | some g => simp [preloadEachWith, ih fs _ h', DB.Preload]

/-- C10. For a model with the multi-relation `RequiresPreload` returning the
names `a` and the functions `b`, a preload that is not shallow aborts exactly
when `len(b)` is neither 0 nor `len(a)`, and then with the query untouched: no
`Preload` has been applied. With `b` nil or empty it applies `Preload(a[i])`
for every `i` in order; with `len(a) = len(b)` it applies, for every `i` in
order, `Preload(a[i])` when `b[i]` is nil and `Preload(a[i], b[i])`
otherwise. -/
theorem multi_preload_check {F : Type} (env : TypeEnv) (fuel : Nat) (q : Q F)
    (a : List String) (b : List (Option F)) (qry : DB F)
    (h : q.requiresPreload = .multi a b) :
    ((∃ e, (q.preload env fuel qry false).result = .abort e)
      ↔ (b.length ≠ 0 ∧ b.length ≠ a.length)) ∧
    (b.length ≠ 0 → b.length ≠ a.length →
      q.preload env fuel qry false
        = { qry := qry, result := .abort (.logicError a.length b.length) }) ∧
    (b.length = 0 →
      q.preload env fuel qry false
        = { qry := qry ++ a.map (fun x => { query := x, args := [] }), result := .ok () }) ∧
    (b.length = a.length →
      q.preload env fuel qry false
        = { qry := qry ++ List.zipWith (fun x f => { query := x, args := f.toList }) a b,
            result := .ok () }) := by
  have hbad : b.length ≠ 0 → b.length ≠ a.length →
      q.preload env fuel qry false
        = { qry := qry, result := .abort (.logicError a.length b.length) } := by
    intro h0 hne
    unfold Q.preload
    simp [h, h0, Ne.symm hne]
  have hempty : b.length = 0 →
      q.preload env fuel qry false
        = { qry := qry ++ a.map (fun x => { query := x, args := [] }), result := .ok () } := by
    intro h0
    unfold Q.preload
    simp [h, h0, preloadEach_eq]
  have hsame : b.length = a.length →
      q.preload env fuel qry false
        = { qry := qry ++ List.zipWith (fun x f => { query := x, args := f.toList }) a b,
            result := .ok () } := by
    intro hl
    by_cases h0 : b.length = 0
    · rw [hempty h0]
      have hb : b = [] := List.length_eq_zero.mp h0
      have ha : a = [] := List.length_eq_zero.mp (by omega)
      subst hb; subst ha
      rfl
    · have h0' : ¬ a.length = 0 := by omega
      unfold Q.preload
      simp only [h, h0', hl, ne_eq, not_true_eq_false, if_false, Bool.false_eq_true]
      exact preloadEachWith_eq a b qry hl.symm
  refine ⟨?_, hbad, hempty, hsame⟩
  constructor
  · rintro ⟨e, he⟩
    by_contra hcon
    by_cases h0 : b.length = 0
    · rw [hempty h0] at he
      simp at he
    · have hl : b.length = a.length := by
        by_contra hne
        exact hcon ⟨h0, hne⟩
      rw [hsame hl] at he
      simp at he
  · rintro ⟨h0, hne⟩
    exact ⟨_, by rw [hbad h0 hne]⟩

theorem multi_preload_check_witness :
    (Q.mk 12 (.multi ["Posts", "Comments"] [none, some 7])).preload blogEnv 5 [] false
      = { qry := [⟨"Posts", []⟩, ⟨"Comments", [7]⟩], result := .ok () } ∧
    (Q.mk 12 (.multi ["Posts", "Comments"] [some 7])).preload blogEnv 5 [] false
      = { qry := [], result := .abort (.logicError 2 1) } ∧
    (Q.mk 12 (.multi ["Posts", "Comments"] ([] : List (Option Nat)))).preload blogEnv 5 []
        false
      = { qry := [⟨"Posts", []⟩, ⟨"Comments", []⟩], result := .ok () } :=
  ⟨(multi_preload_check blogEnv 5 (Q.mk 12 (.multi ["Posts", "Comments"] [none, some 7]))
      ["Posts", "Comments"] [none, some (7 : Nat)] [] rfl).2.2.2 rfl,
    (multi_preload_check blogEnv 5 (Q.mk 12 (.multi ["Posts", "Comments"] [some 7]))
      ["Posts", "Comments"] [some (7 : Nat)] [] rfl).2.1 (by decide) (by decide),
    (multi_preload_check blogEnv 5 (Q.mk 12 (.multi ["Posts", "Comments"] []))
      ["Posts", "Comments"] ([] : List (Option Nat)) [] rfl).2.2.1 rfl⟩

/-! ## C9: the fields along a returned path -/

theorem rangeLoop_mem (env : TypeEnv) (recur : Model → String → Res (List String))
    (pfx : String) :
    ∀ (flds : List fieldInfo) (L : List String),
      rangeLoop env recur pfx flds [] = .ok L → ∀ p ∈ L,
      ∃ fld ∈ flds, (env fld.typ).Kind = Kind.Slice ∧
        (p = pfx ++ fld.name ∨
          ∃ sub, recur (.type fld.typ) (pfx ++ fld.name ++ ".") = .ok sub ∧ p ∈ sub) := by
  intro flds
  induction flds with
  | nil => intro L h p hp; simp [rangeLoop] at h; subst h; simp at hp
  | cons hd rest ih =>
    intro L h p hp
    by_cases hk : (env hd.typ).Kind = Kind.Slice
    · rw [rangeLoop_cons_slice _ _ _ _ _ hk] at h
      cases hr : recur (.type hd.typ) (pfx ++ hd.name ++ ".") with
      | ok sub =>
        simp only [hr] at h
        cases hrest : rangeLoop env recur pfx rest [] with
        | ok more =>
          rw [hrest] at h
          simp only [Res.map, Res.ok.injEq] at h
          subst h
          rcases List.mem_cons.mp hp with rfl | hp2
          · exact ⟨hd, List.mem_cons_self _ _, hk, Or.inl rfl⟩
          · rcases List.mem_append.mp hp2 with hs | hm
            · exact ⟨hd, List.mem_cons_self _ _, hk, Or.inr ⟨sub, hr, hs⟩⟩
            · obtain ⟨fld, hf, hfk, hfp⟩ := ih more hrest p hm
              exact ⟨fld, List.mem_cons_of_mem _ hf, hfk, hfp⟩
        | abort e => rw [hrest] at h; simp [Res.map] at h
        | timeout => rw [hrest] at h; simp [Res.map] at h
      | abort e => simp [hr] at h
      | timeout => simp [hr] at h
    · rw [rangeLoop_cons_other _ _ _ _ _ _ hk] at h
      obtain ⟨fld, hf, hfk, hfp⟩ := ih L h p hp
      exact ⟨fld, List.mem_cons_of_mem _ hf, hfk, hfp⟩

theorem mem_includedFields_iff (fields : List StructField) (fld : fieldInfo) :
    fld ∈ includedFields fields ↔
      ∃ f ∈ fields, exported f = true ∧ optedOut f = false ∧
        fld = { name := f.Name, typ := f.Typ } := by
  unfold includedFields
  constructor
  · intro h
    obtain ⟨f, hf, rfl⟩ := List.mem_map.mp h
    obtain ⟨hm, hc⟩ := List.mem_filter.mp hf
    simp only [Bool.and_eq_true, Bool.not_eq_eq_eq_not, Bool.not_true] at hc
    exact ⟨f, hm, hc.1, hc.2, rfl⟩
  · rintro ⟨f, hm, he, ho, rfl⟩
    exact mem_includedFields fields f hm he ho

theorem exportedFields_fieldOf (env : TypeEnv) :
    ∀ (n : Nat) (t : TypeId) (flds : List fieldInfo),
      exportedFields env n (.type t) = .ok flds → ∀ fld ∈ flds,
      ∃ f, FieldOf env t f ∧ fld = { name := f.Name, typ := f.Typ } := by
  intro n
  induction n with
  | zero => intro t flds h; simp [exportedFields_zero] at h
  | succ n ih =>
    intro t flds h fld hfld
    rw [exportedFields_step] at h
    cases hd : env t with
    | Struct fields =>
      simp only [hd, Res.ok.injEq] at h
      subst h
      obtain ⟨f, hm, he, ho, rfl⟩ := (mem_includedFields_iff fields fld).mp hfld
      exact ⟨f, ⟨t, fields, Reaches.here hd, hd, hm, he, ho⟩, rfl⟩
    | Ptr e =>
      simp only [hd] at h
      obtain ⟨f, ⟨s, fields, hr, hrest⟩, hf⟩ := ih e flds h fld hfld
      exact ⟨f, ⟨s, fields, Reaches.ptr hd hr, hrest⟩, hf⟩
    | Slice e =>
      simp only [hd] at h
      obtain ⟨f, ⟨s, fields, hr, hrest⟩, hf⟩ := ih e flds h fld hfld
      exact ⟨f, ⟨s, fields, Reaches.slice hd hr, hrest⟩, hf⟩
    | Array k e =>
      simp only [hd] at h
      obtain ⟨f, ⟨s, fields, hr, hrest⟩, hf⟩ := ih e flds h fld hfld
      exact ⟨f, ⟨s, fields, Reaches.array hd hr, hrest⟩, hf⟩
    | Map k e => simp only [hd, Res.ok.injEq] at h; subst h; simp at hfld
    | Chan e => simp only [hd, Res.ok.injEq] at h; subst h; simp at hfld
    | Basic k => simp only [hd, Res.ok.injEq] at h; subst h; simp at hfld

theorem joinPath_cons (a : String) (rest : List String) (h : rest ≠ []) :
    joinPath (a :: rest) = a ++ "." ++ joinPath rest := by
  cases rest with
  | nil => exact absurd rfl h
  | cons b r => rfl

theorem Chain.ne_nil {env : TypeEnv} {Link Terminal : StructField → Prop} {t : TypeId}
    {fs : List StructField} (h : Chain env Link Terminal t fs) : fs ≠ [] := by
  cases h <;> simp

theorem autoPreloadsInternal_chain (env : TypeEnv) :
    ∀ (fuel : Nat) (t : TypeId) (pfx : String) (i : Nat) (L : List String),
      autoPreloadsInternal env fuel (.type t) pfx i = .ok L → ∀ p ∈ L,
      ∃ chain, Chain env (fun f => (env f.Typ).Kind = Kind.Slice)
          (fun f => (env f.Typ).Kind = Kind.Slice) t chain ∧
        p = pfx ++ joinPath (chain.map (fun f => f.Name)) := by
  intro fuel
  induction fuel with
  | zero =>
    intro t pfx i L h
    by_cases hi : i ≤ maxRecursion
    · simp [autoPreloadsInternal_zero env _ pfx i hi] at h
    · simp [autoPreloadsInternal_ceiling env 0 _ pfx i (Nat.lt_of_not_le hi)] at h
  | succ n ih =>
    intro t pfx i L h p hp
    by_cases hi : i ≤ maxRecursion
    · rw [autoPreloadsInternal_succ env n _ pfx i hi] at h
      cases he : exportedFields env (n + 1) (.type t) with
      | ok flds =>
        simp only [he] at h
        obtain ⟨fld, hfld, hk, hcase⟩ := rangeLoop_mem env _ pfx flds L h p hp
        obtain ⟨f, hfo, rfl⟩ := exportedFields_fieldOf env (n + 1) t flds he fld hfld
        rcases hcase with rfl | ⟨sub, hsub, hps⟩
        · exact ⟨[f], Chain.last hfo hk, rfl⟩
        · obtain ⟨chain, hc, rfl⟩ := ih f.Typ _ (i + 1) sub hsub p hps
          refine ⟨f :: chain, Chain.link hfo hk hc, ?_⟩
          rw [List.map_cons, joinPath_cons _ _ (by simpa using hc.ne_nil)]
          simp only [String.append_assoc]
      | abort e => simp [he] at h
      | timeout => simp [he] at h
    · simp [autoPreloadsInternal_ceiling env (n + 1) _ pfx i (Nat.lt_of_not_le hi)] at h

/-- C9 (as amended). Every path that `autoPreloads` returns is the
dot-separated chain of the names of fields `f1, ..., fn` where `f1` is a field
of the struct the model unwraps to and each next one a field of the struct the
declared type of the one before unwraps to, and every field of the chain, the
terminal one included, is exported, carries no opt-out annotation and has a
declared type of slice kind. Nothing is required of the element type of the
terminal field. -/
theorem path_chain (env : TypeEnv) (fuel : Nat) (m : Model) (t : TypeId)
    (L : List String) (p : String) (hm : m.typ = some t)
    (h : autoPreloads env fuel m = .ok L) (hp : p ∈ L) :
    ∃ chain, Chain env (fun f => (env f.Typ).Kind = Kind.Slice)
        (fun f => (env f.Typ).Kind = Kind.Slice) t chain ∧
      p = joinPath (chain.map (fun f => f.Name)) := by
  rw [autoPreloads_typ env fuel m t hm] at h
  obtain ⟨chain, hc, hpc⟩ := autoPreloadsInternal_chain env fuel t "" 0 L h p hp
  refine ⟨chain, hc, ?_⟩
  rw [hpc]
  exact String.empty_append _

theorem path_chain_witness :
    ∃ chain, Chain testEnv (fun f => (testEnv f.Typ).Kind = Kind.Slice)
        (fun f => (testEnv f.Typ).Kind = Kind.Slice) 12 chain ∧
      "Children.ChildrenT2" = joinPath (chain.map (fun f => f.Name)) :=
  path_chain testEnv 10 (.value 12) 12
    ["Children", "Children.ChildrenT2", "Children.ChildrenT2.ChildrenT3"]
    "Children.ChildrenT2" rfl (by decide) (by decide)

/-- C9 as stated fails: `autoPreloads` on `Model{F []string}` returns the path
`F`, and no chain of exported fields without opt-out annotation from `Model`
ends in a collection field whose element type unwraps to a struct. -/
theorem path_to_scalar_collection :
    ¬ (∀ (env : TypeEnv) (fuel : Nat) (m : Model) (t : TypeId) (L : List String)
      (p : String), m.typ = some t → autoPreloads env fuel m = .ok L → p ∈ L →
      ∃ chain, Chain env (fun _ => True) (CollectionOfStructs env) t chain ∧
        p = joinPath (chain.map (fun f => f.Name))) := by
  intro h
  obtain ⟨chain, hc, _⟩ := h scalarEnv 5 (.value 0) 0 ["F"] "F" rfl (by decide) (by simp)
  have hfield : ∀ f, FieldOf scalarEnv 0 f → f.Typ = 1 := by
    rintro f ⟨s, fields, hr, hs, hmem, _, _⟩
    cases hr with
    | here h0 =>
      simp only [scalarEnv, TypeDesc.Struct.injEq] at hs
      subst hs
      simp only [List.mem_singleton] at hmem
      rw [hmem]
    | ptr h0 _ => simp [scalarEnv] at h0
    | slice h0 _ => simp [scalarEnv] at h0
    | array h0 _ => simp [scalarEnv] at h0
  have hno2 : ∀ s, ¬ Reaches scalarEnv 2 s := by
    intro s hr
    cases hr with
    | here h0 => simp [scalarEnv] at h0
    | ptr h0 _ => simp [scalarEnv] at h0
    | slice h0 _ => simp [scalarEnv] at h0
    | array h0 _ => simp [scalarEnv] at h0
  have hno1 : ∀ s, ¬ Reaches scalarEnv 1 s := by
    intro s hr
    cases hr with
    | here h0 => simp [scalarEnv] at h0
    | ptr h0 _ => simp [scalarEnv] at h0
    | slice h0 r =>
      simp only [scalarEnv, TypeDesc.Slice.injEq] at h0
      subst h0
      exact hno2 s r
    | array h0 _ => simp [scalarEnv] at h0
  cases hc with
  | last hf ht =>
    obtain ⟨e, s, he, hr⟩ := ht
    rw [hfield _ hf] at he
    simp only [scalarEnv, collectionElem, Option.some.injEq] at he
    subst he
    exact hno2 s hr
  | link hf _ hr =>
    rw [hfield _ hf] at hr
    cases hr with
    | last hg _ =>
      obtain ⟨s, _, hr1, _⟩ := hg
      exact hno1 s hr1
    | link hg _ _ =>
      obtain ⟨s, _, hr1, _⟩ := hg
      exact hno1 s hr1

/-! ## C2: a path comes after its parent, and right before its descendants -/

theorem hasPfx_iff (q p : List Char) : hasPfx q p = true ↔ ∃ r, p = q ++ r := by
  induction q generalizing p with
  | nil => simp [hasPfx]
  | cons a q ih =>
    cases p with
    | nil => simp [hasPfx]
    | cons b p =>
      simp only [hasPfx, Bool.and_eq_true, decide_eq_true_eq, ih, List.cons_append,
        List.cons.injEq]
      constructor
      · rintro ⟨rfl, r, rfl⟩
        exact ⟨r, rfl, rfl⟩
      · rintro ⟨r, rfl, rfl⟩
        exact ⟨rfl, r, rfl⟩

theorem parentChars_append_dot (a r : List Char) (hr : '.' ∉ r) :
    parentChars (a ++ '.' :: r) = a := by
  induction a with
  | nil => simp [parentChars, hr]
  | cons c a ih => simp [parentChars, ih]

theorem dot_split (a b u w : List Char) (ha : '.' ∉ a) (hb : '.' ∉ b)
    (hw : w = [] ∨ ∃ v, w = '.' :: v) (h : a ++ '.' :: u = b ++ w) : a = b := by
  induction a generalizing b with
  | nil =>
    cases b with
    | nil => rfl
    | cons c b =>
      simp only [List.nil_append, List.cons_append, List.cons.injEq] at h
      exact absurd (h.1 ▸ List.mem_cons_self _ _) hb
  | cons c a ih =>
    cases b with
    | nil =>
      rcases hw with rfl | ⟨v, rfl⟩
      · simp at h
      · simp only [List.cons_append, List.nil_append, List.cons.injEq] at h
        exact absurd (h.1 ▸ List.mem_cons_self _ _) ha
    | cons d b =>
      simp only [List.cons_append, List.cons.injEq] at h
      rw [h.1, ih b (fun hm => ha (List.mem_cons_of_mem _ hm))
        (fun hm => hb (List.mem_cons_of_mem _ hm)) h.2]

theorem Flat.names_dotfree {pfx : List Char} {names L : List (List Char)}
    (h : Flat pfx names L) : ∀ nm ∈ names, '.' ∉ nm := by
  induction h with
  | nil => intro nm hm; simp at hm
  | node hdot _ _ _ _ ih =>
    intro nm' hm
    rcases List.mem_cons.mp hm with rfl | hm'
    · exact hdot
    · exact ih nm' hm'

/-- Every element of a flat list is `pfx+name` for a root name, followed by
nothing or by a `.` and more. -/
theorem Flat.shape {pfx : List Char} {names L : List (List Char)} (h : Flat pfx names L) :
    ∀ x ∈ L, ∃ nm ∈ names, ∃ s, x = pfx ++ nm ++ s ∧ (s = [] ∨ ∃ s', s = '.' :: s') := by
  induction h with
  | nil => intro x hx; simp at hx
  | @node pfx nm names names' sub L hdot hnew _ _ ihsub ihrest =>
    intro x hx
    rcases List.mem_cons.mp hx with rfl | hx'
    · exact ⟨nm, List.mem_cons_self _ _, [], by simp, Or.inl rfl⟩
    · rcases List.mem_append.mp hx' with hs | hl
      · obtain ⟨nm1, _, s, rfl, _⟩ := ihsub x hs
        exact ⟨nm, List.mem_cons_self _ _, '.' :: (nm1 ++ s), by simp, Or.inr ⟨_, rfl⟩⟩
      · obtain ⟨nm1, hm1, s, rfl, hs⟩ := ihrest x hl
        exact ⟨nm1, List.mem_cons_of_mem _ hm1, s, rfl, hs⟩

/-- No element of a flat list lies under a name that is not one of its
roots. -/
theorem Flat.not_under {pfx : List Char} {names L : List (List Char)} (h : Flat pfx names L)
    (nm : List Char) (hdot : '.' ∉ nm) (hnew : nm ∉ names) :
    ∀ x ∈ L, ∀ z, x ≠ pfx ++ nm ++ '.' :: z := by
  intro x hx z hxz
  obtain ⟨nm1, hm1, s, hxs, hs⟩ := h.shape x hx
  rw [hxs, List.append_assoc, List.append_assoc, List.append_cancel_left_eq] at hxz
  have := dot_split nm nm1 z s hdot (h.names_dotfree nm1 hm1) hs hxz.symm
  exact hnew (this ▸ hm1)

/-- In a flat list, an element below the top level has its parent earlier in
the list, and the elements under the parent are exactly the block `D` that
follows the parent. -/
theorem Flat.parent_block {pfx : List Char} {names L : List (List Char)}
    (h : Flat pfx names L) :
    ∀ (A : List (List Char)) (p : List Char) (B : List (List Char)) (r : List Char),
      L = A ++ p :: B → p = pfx ++ r → '.' ∈ r →
      ∃ A1 A2 D E, A = A1 ++ parentChars p :: A2 ∧ L = A1 ++ parentChars p :: (D ++ E) ∧
        (∀ x ∈ D, ∃ z, x = parentChars p ++ '.' :: z) ∧
        (∀ x ∈ A1, ∀ z, x ≠ parentChars p ++ '.' :: z) ∧
        (∀ x ∈ E, ∀ z, x ≠ parentChars p ++ '.' :: z) := by
  induction h with
  | nil => intro A p B r hL; simp at hL
  | @node pfx nm names names' sub L hdot hnew hsub hrest ihsub ihrest =>
    intro A p B r hL hp hr
    have inL : ∀ C, A = (pfx ++ nm) :: (sub ++ C) → L = C ++ p :: B →
        ∃ A1 A2 D E, A = A1 ++ parentChars p :: A2 ∧
          (pfx ++ nm) :: (sub ++ L) = A1 ++ parentChars p :: (D ++ E) ∧
          (∀ x ∈ D, ∃ z, x = parentChars p ++ '.' :: z) ∧
          (∀ x ∈ A1, ∀ z, x ≠ parentChars p ++ '.' :: z) ∧
          (∀ x ∈ E, ∀ z, x ≠ parentChars p ++ '.' :: z) := by
      intro C hA hLC
      obtain ⟨A1, A2, D, E, hC, hLeq, hD, hA1, hE⟩ := ihrest C p B r hLC hp hr
      have hqmem : parentChars p ∈ L := by rw [hLeq]; simp
      obtain ⟨nm1, hm1, s, hq, hs⟩ := hrest.shape _ hqmem
      have hne : nm ≠ nm1 := fun e => hnew (e ▸ hm1)
      have hw : ∀ z, (s ++ '.' :: z = [] ∨ ∃ v, s ++ '.' :: z = '.' :: v) := by
        intro z
        rcases hs with rfl | ⟨s', rfl⟩
        · exact Or.inr ⟨z, rfl⟩
        · exact Or.inr ⟨s' ++ '.' :: z, rfl⟩
      refine ⟨(pfx ++ nm) :: (sub ++ A1), A2, D, E, ?_, ?_, hD, ?_, hE⟩
      · rw [hA, hC]; simp
      · rw [hLeq]; simp
      · intro x hx z hxz
        rcases List.mem_cons.mp hx with rfl | hx'
        · rw [hq] at hxz
          have h2 : nm = nm1 ++ (s ++ '.' :: z) := by
            have := hxz
            simp only [List.append_assoc] at this
            exact List.append_cancel_left this
          have hmem : '.' ∈ nm := by rw [h2]; simp
          exact hdot hmem
        · rcases List.mem_append.mp hx' with hxs | hxa
          · rw [hq] at hxz
            obtain ⟨nm2, _, s2, rfl, _⟩ := hsub.shape x hxs
            have h2 : nm ++ '.' :: (nm2 ++ s2) = nm1 ++ (s ++ '.' :: z) := by
              have := hxz
              simp only [List.append_assoc, List.singleton_append] at this
              exact List.append_cancel_left this
            exact hne (dot_split nm nm1 _ _ hdot (hrest.names_dotfree nm1 hm1) (hw z) h2)
          · exact hA1 x hxa z hxz
    have inSub : ∀ A' C, A = (pfx ++ nm) :: A' → sub = A' ++ p :: C →
        ∃ A1 A2 D E, A = A1 ++ parentChars p :: A2 ∧
          (pfx ++ nm) :: (sub ++ L) = A1 ++ parentChars p :: (D ++ E) ∧
          (∀ x ∈ D, ∃ z, x = parentChars p ++ '.' :: z) ∧
          (∀ x ∈ A1, ∀ z, x ≠ parentChars p ++ '.' :: z) ∧
          (∀ x ∈ E, ∀ z, x ≠ parentChars p ++ '.' :: z) := by
      intro A' C hA hsubeq
      have hpmem : p ∈ sub := by rw [hsubeq]; simp
      obtain ⟨nm2, _, s2, hp2, _⟩ := hsub.shape p hpmem
      have hp1 : p = (pfx ++ nm ++ ['.']) ++ (nm2 ++ s2) := by rw [hp2]; simp
      by_cases hdot1 : '.' ∈ nm2 ++ s2
      · obtain ⟨A1, A2, D, E, hC, hseq, hD, hA1, hE⟩ := ihsub A' p C (nm2 ++ s2) hsubeq hp1 hdot1
        have hqmem : parentChars p ∈ sub := by rw [hseq]; simp
        obtain ⟨nmq, _, sq, hq, _⟩ := hsub.shape _ hqmem
        refine ⟨(pfx ++ nm) :: A1, A2, D, E ++ L, ?_, ?_, hD, ?_, ?_⟩
        · rw [hA, hC]; simp
        · rw [hseq]; simp
        · intro x hx z hxz
          rcases List.mem_cons.mp hx with rfl | hx'
          · rw [hq] at hxz
            have h2 : nm = nm ++ ('.' :: (nmq ++ (sq ++ '.' :: z))) := by
              have := hxz
              simp only [List.append_assoc, List.singleton_append] at this
              exact List.append_cancel_left this
            have := List.self_eq_append_right.mp h2
            simp at this
          · exact hA1 x hx' z hxz
        · intro x hx z hxz
          rcases List.mem_append.mp hx with hxe | hxl
          · exact hE x hxe z hxz
          · rw [hq] at hxz
            refine hrest.not_under nm hdot hnew x hxl (nmq ++ (sq ++ '.' :: z)) ?_
            rw [hxz]; simp
      · have hq : parentChars p = pfx ++ nm := by
          rw [hp1]
          have : pfx ++ nm ++ ['.'] ++ (nm2 ++ s2) = (pfx ++ nm) ++ '.' :: (nm2 ++ s2) := by simp
          rw [this]
          exact parentChars_append_dot _ _ hdot1
        rw [hq]
        refine ⟨[], A', sub, L, ?_, ?_, ?_, ?_, ?_⟩
        · rw [hA]; simp
        · simp
        · intro x hx
          obtain ⟨nm3, _, s3, rfl, _⟩ := hsub.shape x hx
          exact ⟨nm3 ++ s3, by simp⟩
        · intro x hx; simp at hx
        · intro x hx z hxz
          exact hrest.not_under nm hdot hnew x hx z hxz
    cases A with
    | nil =>
      simp only [List.nil_append, List.cons.injEq] at hL
      have h2 : nm = r := List.append_cancel_left (hL.1.trans hp)
      exact absurd (h2 ▸ hr) hdot
    | cons a A' =>
      simp only [List.cons_append, List.cons.injEq] at hL
      obtain ⟨ha, hrest2⟩ := hL
      subst ha
      rcases List.append_eq_append_iff.mp hrest2 with ⟨a', h1, h2⟩ | ⟨c', h1, h2⟩
      · exact inL a' (by rw [h1]) h2
      · cases c' with
        | nil =>
          simp only [List.nil_append] at h2
          simp only [List.append_nil] at h1
          exact inL [] (by rw [h1]; simp) (by simpa using h2.symm)
        | cons c c'' =>
          simp only [List.cons_append, List.cons.injEq] at h2
          obtain ⟨hc, _⟩ := h2
          subst hc
          exact inSub A' c'' rfl h1

theorem exportedFields_struct_or_nil (env : TypeEnv) :
    ∀ (n : Nat) (t : TypeId) (flds : List fieldInfo),
      exportedFields env n (.type t) = .ok flds →
      flds = [] ∨ ∃ s fields, env s = .Struct fields ∧ flds = includedFields fields := by
  intro n
  induction n with
  | zero => intro t flds h; simp [exportedFields_zero] at h
  | succ n ih =>
    intro t flds h
    rw [exportedFields_step] at h
    cases hd : env t with
    | Struct fields =>
      simp only [hd, Res.ok.injEq] at h
      exact Or.inr ⟨t, fields, hd, h.symm⟩
    | Ptr e => simp only [hd] at h; exact ih e flds h
    | Slice e => simp only [hd] at h; exact ih e flds h
    | Array k e => simp only [hd] at h; exact ih e flds h
    | Map k e => simp only [hd, Res.ok.injEq] at h; exact Or.inl h.symm
    | Chan e => simp only [hd, Res.ok.injEq] at h; exact Or.inl h.symm
    | Basic k => simp only [hd, Res.ok.injEq] at h; exact Or.inl h.symm

theorem exportedFields_wellNamed (env : TypeEnv) (hw : WellNamed env) (n : Nat) (t : TypeId)
    (flds : List fieldInfo) (h : exportedFields env n (.type t) = .ok flds) :
    (∀ fld ∈ flds, '.' ∉ fld.name.data) ∧ (flds.map (fun fld => fld.name)).Nodup := by
  rcases exportedFields_struct_or_nil env n t flds h with rfl | ⟨s, fields, hs, rfl⟩
  · simp
  · have hws := hw s
    rw [hs] at hws
    simp only [wellNamed, Bool.and_eq_true, List.all_eq_true, Bool.not_eq_eq_eq_not,
      Bool.not_true, decide_eq_false_iff_not, decide_eq_true_eq] at hws
    refine ⟨?_, hws.2⟩
    intro fld hfld
    obtain ⟨f, hf, _, _, rfl⟩ := (mem_includedFields_iff fields fld).mp hfld
    exact hws.1 f hf

theorem rangeLoop_flat (env : TypeEnv) (recur : Model → String → Res (List String))
    (pfx : String)
    (hrec : ∀ (t : TypeId) (p : String) (sub : List String), recur (.type t) p = .ok sub →
      ∃ names, Flat p.data names (sub.map String.data)) :
    ∀ (flds : List fieldInfo) (L : List String),
      (∀ fld ∈ flds, '.' ∉ fld.name.data) → (flds.map (fun fld => fld.name)).Nodup →
      rangeLoop env recur pfx flds [] = .ok L →
      ∃ names, (∀ nm ∈ names, ∃ fld ∈ flds, nm = fld.name.data) ∧
        Flat pfx.data names (L.map String.data) := by
  intro flds
  induction flds with
  | nil =>
    intro L _ _ h
    simp only [rangeLoop, Res.ok.injEq] at h
    subst h
    exact ⟨[], by simp, Flat.nil _⟩
  | cons hd rest ih =>
    intro L hdots hnodup h
    have hdots' : ∀ fld ∈ rest, '.' ∉ fld.name.data :=
      fun fld hm => hdots fld (List.mem_cons_of_mem _ hm)
    simp only [List.map_cons, List.nodup_cons] at hnodup
    by_cases hk : (env hd.typ).Kind = Kind.Slice
    · rw [rangeLoop_cons_slice _ _ _ _ _ hk] at h
      cases hr : recur (.type hd.typ) (pfx ++ hd.name ++ ".") with
      | ok sub =>
        simp only [hr] at h
        cases hrest : rangeLoop env recur pfx rest [] with
        | ok more =>
          rw [hrest] at h
          simp only [Res.map, Res.ok.injEq] at h
          subst h
          obtain ⟨names, hnames, hflat⟩ := ih more hdots' hnodup.2 hrest
          obtain ⟨names', hsub⟩ := hrec hd.typ _ sub hr
          have hpd : (pfx ++ hd.name ++ ".").data = pfx.data ++ hd.name.data ++ ['.'] := by
            simp [String.data_append]
          rw [hpd] at hsub
          refine ⟨hd.name.data :: names, ?_, ?_⟩
          · intro nm hm
            rcases List.mem_cons.mp hm with rfl | hm'
            · exact ⟨hd, List.mem_cons_self _ _, rfl⟩
            · obtain ⟨fld, hf, hfn⟩ := hnames nm hm'
              exact ⟨fld, List.mem_cons_of_mem _ hf, hfn⟩
          · have hnew : hd.name.data ∉ names := by
              intro hm
              obtain ⟨fld, hf, hfn⟩ := hnames _ hm
              exact hnodup.1 (List.mem_map.mpr ⟨fld, hf, (String.ext hfn).symm⟩)
            have := Flat.node (hdots hd (List.mem_cons_self _ _)) hnew hsub hflat
            simpa [String.data_append] using this
        | abort e => rw [hrest] at h; simp [Res.map] at h
        | timeout => rw [hrest] at h; simp [Res.map] at h
      | abort e => simp [hr] at h
      | timeout => simp [hr] at h
    · rw [rangeLoop_cons_other _ _ _ _ _ _ hk] at h
      obtain ⟨names, hnames, hflat⟩ := ih L hdots' hnodup.2 h
      refine ⟨names, ?_, hflat⟩
      intro nm hm
      obtain ⟨fld, hf, hfn⟩ := hnames nm hm
      exact ⟨fld, List.mem_cons_of_mem _ hf, hfn⟩

theorem autoPreloadsInternal_flat (env : TypeEnv) (hw : WellNamed env) :
    ∀ (fuel : Nat) (t : TypeId) (pfx : String) (i : Nat) (L : List String),
      autoPreloadsInternal env fuel (.type t) pfx i = .ok L →
      ∃ names, Flat pfx.data names (L.map String.data) := by
  intro fuel
  induction fuel with
  | zero =>
    intro t pfx i L h
    by_cases hi : i ≤ maxRecursion
    · simp [autoPreloadsInternal_zero env _ pfx i hi] at h
    · simp [autoPreloadsInternal_ceiling env 0 _ pfx i (Nat.lt_of_not_le hi)] at h
  | succ n ih =>
    intro t pfx i L h
    by_cases hi : i ≤ maxRecursion
    · rw [autoPreloadsInternal_succ env n _ pfx i hi] at h
      cases he : exportedFields env (n + 1) (.type t) with
      | ok flds =>
        simp only [he] at h
        obtain ⟨hdots, hnodup⟩ := exportedFields_wellNamed env hw (n + 1) t flds he
        obtain ⟨names, _, hflat⟩ := rangeLoop_flat env _ pfx
          (fun t' p sub hsub => ih t' p (i + 1) sub hsub) flds L hdots hnodup h
        exact ⟨names, hflat⟩
      | abort e => simp [he] at h
      | timeout => simp [he] at h
    · simp [autoPreloadsInternal_ceiling env (n + 1) _ pfx i (Nat.lt_of_not_le hi)] at h

theorem block_index {α : Type} (A1 : List α) (c : α) (D E : List α) (x : Nat) (y : α)
    (h : (A1 ++ c :: (D ++ E))[x]? = some y) :
    (x < A1.length ∧ y ∈ A1) ∨ (x = A1.length ∧ y = c) ∨
      (A1.length < x ∧ x ≤ A1.length + D.length ∧ y ∈ D) ∨
      (A1.length + D.length < x ∧ y ∈ E) := by
  rw [List.getElem?_append] at h
  by_cases h1 : x < A1.length
  · simp only [h1, if_true] at h
    exact Or.inl ⟨h1, List.getElem?_mem h⟩
  · simp only [h1, if_false] at h
    obtain ⟨m, hm⟩ : ∃ m, x = A1.length + m := ⟨x - A1.length, by omega⟩
    subst hm
    simp only [Nat.add_sub_cancel_left] at h
    cases m with
    | zero =>
      simp only [List.getElem?_cons_zero, Option.some.injEq] at h
      exact Or.inr (Or.inl ⟨rfl, h.symm⟩)
    | succ m =>
      rw [List.getElem?_cons_succ, List.getElem?_append] at h
      by_cases h2 : m < D.length
      · simp only [h2, if_true] at h
        exact Or.inr (Or.inr (Or.inl ⟨by omega, by omega, List.getElem?_mem h⟩))
      · simp only [h2, if_false] at h
        exact Or.inr (Or.inr (Or.inr ⟨by omega, List.getElem?_mem h⟩))

theorem split_at_index {α : Type} (L : List α) (k : Nat) (p : α) (h : L[k]? = some p) :
    L = L.take k ++ p :: L.drop (k + 1) ∧ (L.take k).length = k := by
  obtain ⟨hk, hp⟩ := List.getElem?_eq_some.mp h
  constructor
  · conv_lhs => rw [← List.take_append_drop k L, List.drop_eq_getElem_cons hk, hp]
  · simp [Nat.min_eq_left (Nat.le_of_lt hk)]

/-- C2. Let `autoPreloads` return the list `L` on a type table in which, as
Go guarantees, no field name holds a `.` and the exported field names of a
struct are pairwise different. For every index `k` whose path `L[k]` holds a
`.`, the path with its last dot-separated segment removed is in `L` at an
index `j < k`, and the indices of the paths that have `L[j]+"."` as a prefix
are exactly `j+1, ..., j+n` for some `n`: one block right after `j`. -/
theorem parent_before_child (env : TypeEnv) (fuel : Nat) (m : Model) (L : List String)
    (hw : WellNamed env) (h : autoPreloads env fuel m = .ok L)
    (k : Nat) (p : String) (hk : L[k]? = some p) (hdot : '.' ∈ p.data) :
    ∃ j q n, j < k ∧ L[j]? = some q ∧ q = parentPath p ∧
      ∀ x y, L[x]? = some y →
        (hasPfx (q ++ ".").data y.data = true ↔ (j < x ∧ x ≤ j + n)) := by
  obtain ⟨t, hm⟩ : ∃ t, m.typ = some t := by
    cases m with
    | nil =>
      exfalso
      unfold autoPreloads at h
      cases fuel with
      | zero => simp [autoPreloadsInternal_zero _ _ _ _ (by decide : 0 ≤ maxRecursion)] at h
      | succ n =>
        rw [autoPreloadsInternal_succ _ _ _ _ _ (by decide)] at h
        simp [exportedFields, Model.typ] at h
    | value t => exact ⟨t, rfl⟩
    | type t => exact ⟨t, rfl⟩
  rw [autoPreloads_typ env fuel m t hm] at h
  obtain ⟨names, hflat⟩ := autoPreloadsInternal_flat env hw fuel t "" 0 L h
  have hempty : ("" : String).data = [] := rfl
  rw [hempty] at hflat
  obtain ⟨hsplit, hlen⟩ := split_at_index L k p hk
  have hsplit' : L.map String.data
      = (L.take k).map String.data ++ p.data :: (L.drop (k + 1)).map String.data := by
    conv_lhs => rw [hsplit]
    simp
  obtain ⟨A1, A2, D, E, hA, hL, hD, hA1, hE⟩ :=
    hflat.parent_block _ p.data _ p.data hsplit' (by simp) hdot
  have hj : A1.length < k := by
    have := congrArg List.length hA
    simp only [List.length_map, hlen, List.length_append, List.length_cons] at this
    omega
  have hqget : (L.map String.data)[A1.length]? = some (parentChars p.data) := by
    rw [hL, List.getElem?_append_right (Nat.le_refl _)]
    simp
  rw [List.getElem?_map] at hqget
  obtain ⟨q, hq, hqd⟩ := Option.map_eq_some'.mp hqget
  have hqp : q = parentPath p := String.ext hqd
  refine ⟨A1.length, q, D.length, hj, hq, hqp, ?_⟩
  intro x y hy
  have hyd : (A1 ++ parentChars p.data :: (D ++ E))[x]? = some y.data := by
    rw [← hL, List.getElem?_map, hy]
    rfl
  have hpre : hasPfx (q ++ ".").data y.data = true
      ↔ ∃ z, y.data = parentChars p.data ++ '.' :: z := by
    rw [hasPfx_iff, String.data_append, hqd]
    constructor
    · rintro ⟨r, hr⟩
      exact ⟨r, by rw [hr]; simp⟩
    · rintro ⟨z, hz⟩
      exact ⟨z, by rw [hz]; simp⟩
  rw [hpre]
  rcases block_index A1 _ D E x y.data hyd with ⟨h1, hmem⟩ | ⟨h1, heq⟩ | ⟨h1, h2, hmem⟩ |
    ⟨h1, hmem⟩
  · constructor
    · rintro ⟨z, hz⟩
      exact absurd hz (hA1 _ hmem z)
    · rintro ⟨h3, _⟩
      omega
  · constructor
    · rintro ⟨z, hz⟩
      rw [heq] at hz
      have := List.self_eq_append_right.mp hz
      simp at this
    · rintro ⟨h3, _⟩
      omega
  · constructor
    · intro _
      exact ⟨h1, h2⟩
    · intro _
      exact hD _ hmem
  · constructor
    · rintro ⟨z, hz⟩
      exact absurd hz (hE _ hmem z)
    · rintro ⟨_, h3⟩
      omega

theorem testEnv_wellNamed : WellNamed testEnv := by
  intro t
  unfold testEnv
  split <;> decide

theorem parent_before_child_witness :
    ∃ j q n, j < 2 ∧
      ["Children", "Children.ChildrenT2", "Children.ChildrenT2.ChildrenT3"][j]? = some q ∧
      q = parentPath "Children.ChildrenT2.ChildrenT3" ∧
      ∀ x y, ["Children", "Children.ChildrenT2", "Children.ChildrenT2.ChildrenT3"][x]? = some y →
        (hasPfx (q ++ ".").data y.data = true ↔ (j < x ∧ x ≤ j + n)) :=
  parent_before_child testEnv 10 (.value 12)
    ["Children", "Children.ChildrenT2", "Children.ChildrenT2.ChildrenT3"]
    testEnv_wellNamed (by decide) 2 "Children.ChildrenT2.ChildrenT3" (by decide) (by decide)

/-! ## C4: the outcome does not depend on opted-out fields -/

theorem Chain.not_optedOut {env : TypeEnv} {Link Terminal : StructField → Prop} {t : TypeId}
    {fs : List StructField} (h : Chain env Link Terminal t fs) :
    ∀ f ∈ fs, optedOut f = false := by
  induction h with
  | last hf _ =>
    intro g hg
    obtain ⟨_, _, _, _, _, _, ho⟩ := hf
    rw [List.mem_singleton.mp hg]
    exact ho
  | link hf _ _ ih =>
    intro g hg
    rcases List.mem_cons.mp hg with rfl | hg'
    · obtain ⟨_, _, _, _, _, _, ho⟩ := hf
      exact ho
    · exact ih g hg'

/-- C4. `autoPreloads` on a model has the outcome it has on the type table
with every opted-out field (`ezg` tag `no-preload` or `nopreload`, any letter
case) deleted at every level, and its outcome does not depend on the declared
type of an opted-out field, so that type is never visited. Every returned path
is the chain of the names of fields none of which is opted out. The model
`Node{Children []Node}` with the field opted out returns the empty list. -/
theorem autoPreloads_ignores_optedOut :
    (∀ (env : TypeEnv) (fuel : Nat) (m : Model),
      autoPreloads env fuel m = autoPreloads (deleteOptedOut env) fuel m) ∧
    (∀ (g : TypeId → TypeId) (env : TypeEnv) (fuel : Nat) (m : Model),
      autoPreloads env fuel m = autoPreloads (retargetOptedOut g env) fuel m) ∧
    (∀ (env : TypeEnv) (fuel : Nat) (m : Model) (t : TypeId) (L : List String) (p : String),
      m.typ = some t → autoPreloads env fuel m = .ok L → p ∈ L →
      ∃ chain, Chain env (fun f => (env f.Typ).Kind = Kind.Slice)
          (fun f => (env f.Typ).Kind = Kind.Slice) t chain ∧
        p = joinPath (chain.map (fun f => f.Name)) ∧ ∀ f ∈ chain, optedOut f = false) ∧
    (∀ (fuel : Nat), autoPreloads nodeOptOutEnv (fuel + 1) (.value 0) = .ok []) := by
  refine ⟨?_, ?_, ?_, ?_⟩
  · intro env fuel m
    exact autoPreloadsInternal_agree env _ (deleteOptedOut_agree env) fuel m "" 0
  · intro g env fuel m
    exact autoPreloadsInternal_agree env _ (retargetOptedOut_agree g env) fuel m "" 0
  · intro env fuel m t L p hm h hp
    rw [autoPreloads_typ env fuel m t hm] at h
    obtain ⟨chain, hc, hpc⟩ := autoPreloadsInternal_chain env fuel t "" 0 L h p hp
    refine ⟨chain, hc, ?_, hc.not_optedOut⟩
    rw [hpc]
    exact String.empty_append _
  · intro fuel
    unfold autoPreloads
    rw [autoPreloadsInternal_succ _ _ _ _ _ (by decide), exportedFields_value,
      exportedFields_step]
    rfl

theorem autoPreloads_ignores_optedOut_witness :
    ∃ chain, Chain testEnv (fun f => (testEnv f.Typ).Kind = Kind.Slice)
        (fun f => (testEnv f.Typ).Kind = Kind.Slice) 12 chain ∧
      "Children.ChildrenT2.ChildrenT3" = joinPath (chain.map (fun f => f.Name)) ∧
      ∀ f ∈ chain, optedOut f = false :=
  autoPreloads_ignores_optedOut.2.2.1 testEnv 10 (.value 12) 12
    ["Children", "Children.ChildrenT2", "Children.ChildrenT2.ChildrenT3"]
    "Children.ChildrenT2.ChildrenT3" rfl (by decide) (by decide)

/-! ## C11: `Delete` on a model that is not a `gorm.Model` -/

/-- What `Delete` does by its own checks: a struct without a field `Model`,
and a struct whose field `Model` is a struct without a field `ID` of an
unsigned integer kind, give the error and no database delete; a struct with
`Model.ID` unsigned gives the database delete of that id. -/
theorem Delete_struct_cases (dbError : GoError) :
    (∀ fields, lookupField fields "Model" = .zero →
      Delete none (some (.Struct fields)) dbError
        = { deleted := [], result := .ok (some errNotGormModel) }) ∧
    (∀ fields mfields, lookupField fields "Model" = .Struct mfields →
      (∀ n, lookupField mfields "ID" ≠ .Unsigned n) →
      Delete none (some (.Struct fields)) dbError
        = { deleted := [], result := .ok (some errNotGormModel) }) ∧
    (∀ fields mfields n, lookupField fields "Model" = .Struct mfields →
      lookupField mfields "ID" = .Unsigned n →
      Delete none (some (.Struct fields)) dbError
        = { deleted := [n], result := .ok dbError }) := by
  refine ⟨?_, ?_, ?_⟩
  · intro fields h
    simp [Delete, Value.FieldByName, h, Value.isZero]
  · intro fields mfields h hid
    cases hv : lookupField mfields "ID" with
    | zero => simp [Delete, Value.FieldByName, h, hv, Value.isZero]
    | Struct fs => simp [Delete, Value.FieldByName, h, hv, Value.isZero, Value.CanUint]
    | Unsigned n => exact absurd hv (hid n)
    | Other => simp [Delete, Value.FieldByName, h, hv, Value.isZero, Value.CanUint]
  · intro fields mfields n h hid
    simp [Delete, Value.FieldByName, h, hid, Value.isZero, Value.CanUint, Value.Uint]

/-- C11, at the failing inputs. For a model without a `Delete` method,
`Delete` panics, it does not return an error, on a struct whose field `Model`
is not a struct (`Model string`), on a wrapped type that is not a struct, and
on a nil pointer: `FieldByName` is called on a value that is not of struct
kind. None of the three is a `gorm.Model`. -/
theorem Delete_panics_on_non_struct :
    (∀ (dbError : GoError),
      Delete none (some (.Struct [("Model", .Other)])) dbError
        = { deleted := [], result := .abort .valueError }) ∧
    (∀ (dbError : GoError),
      Delete none (some .Other) dbError = { deleted := [], result := .abort .valueError }) ∧
    (∀ (dbError : GoError),
      Delete none none dbError = { deleted := [], result := .abort .valueError }) ∧
    ¬ IsGormModel (.Struct [("Model", .Other)]) ∧ ¬ IsGormModel .Other := by
  refine ⟨fun _ => rfl, fun _ => rfl, fun _ => rfl, ?_, ?_⟩
  · rintro ⟨fields, mfields, n, hv, hm, _⟩
    simp only [Value.Struct.injEq] at hv
    subst hv
    simp [lookupField] at hm
  · rintro ⟨fields, mfields, n, hv, _, _⟩
    simp at hv

/-! ## C12: preload dispatch for models without `RequiresPreload` -/

/-- C12. For a model that has neither form of `RequiresPreload`, a shallow
`preload` returns `qry` as it is, and a `preload` that is not shallow returns
`qry` with `Preload(p)`, without modifier, applied once for each path `p` of
the list `autoPreloads` returns for the model, in the order of that list, and
nothing else. When `autoPreloads` does not return a list, neither does
`preload`, and no `Preload` has been applied. -/
theorem preload_dispatch_absent {F : Type} (env : TypeEnv) (fuel : Nat) (q : Q F)
    (qry : DB F) (h : q.requiresPreload = .absent) :
    q.preload env fuel qry true = { qry := qry, result := .ok () } ∧
    (∀ (L : List String), autoPreloads env fuel (.value q.obj) = .ok L →
      q.preload env fuel qry false
        = { qry := qry ++ L.map (fun p => { query := p, args := [] }), result := .ok () }) ∧
    (∀ (e : Abort), autoPreloads env fuel (.value q.obj) = .abort e →
      q.preload env fuel qry false = { qry := qry, result := .abort e }) ∧
    (autoPreloads env fuel (.value q.obj) = .timeout →
      q.preload env fuel qry false = { qry := qry, result := .timeout }) := by
  refine ⟨?_, ?_, ?_, ?_⟩
  · simp [Q.preload]
  · intro L hL
    simp [Q.preload, h, hL, preloadEach_eq]
  · intro e he
    simp [Q.preload, h, he]
  · intro ht
    simp [Q.preload, h, ht]

theorem preload_dispatch_absent_witness :
    (Q.mk 12 .absent : Q Nat).preload blogEnv 10 [] true = { qry := [], result := .ok () } ∧
    (Q.mk 12 .absent : Q Nat).preload blogEnv 10 [] false
      = { qry := [⟨"Posts", []⟩, ⟨"Posts.Images", []⟩, ⟨"Posts.Videos", []⟩],
          result := .ok () } ∧
    (Q.mk 2 .absent : Q Nat).preload nodePtrEnv 204 [] false
      = { qry := [], result := .abort (.maxRecursion 201) } :=
  ⟨(preload_dispatch_absent blogEnv 10 (Q.mk 12 .absent : Q Nat) [] rfl).1,
    (preload_dispatch_absent blogEnv 10 (Q.mk 12 .absent : Q Nat) [] rfl).2.1
      ["Posts", "Posts.Images", "Posts.Videos"] (by decide),
    (preload_dispatch_absent nodePtrEnv 204 (Q.mk 2 .absent : Q Nat) [] rfl).2.2.1
      (.maxRecursion 201) (by set_option maxRecDepth 100000 in decide)⟩

/-! ## C14: the returned paths are pairwise distinct, one for each chain -/

theorem Flat.nodup {pfx : List Char} {names L : List (List Char)} (h : Flat pfx names L) :
    L.Nodup := by
  induction h with
  | nil => simp
  | @node pfx nm names names' sub L hdot hnew hsub hrest ihsub ihrest =>
    rw [List.nodup_cons, List.nodup_append]
    refine ⟨?_, ihsub, ihrest, ?_⟩
    · intro hmem
      rcases List.mem_append.mp hmem with hs | hl
      · obtain ⟨nm2, _, s2, hx, _⟩ := hsub.shape _ hs
        have h2 : pfx ++ nm = (pfx ++ nm) ++ ('.' :: (nm2 ++ s2)) := by
          conv_lhs => rw [hx]
          simp
        have := List.self_eq_append_right.mp h2
        simp at this
      · obtain ⟨nm1, hm1, s, hx, hs⟩ := hrest.shape _ hl
        have h2 : nm = nm1 ++ s := by
          rw [List.append_assoc] at hx
          exact List.append_cancel_left hx
        rcases hs with rfl | ⟨s', rfl⟩
        · rw [List.append_nil] at h2
          exact hnew (h2 ▸ hm1)
        · exact hdot (by rw [h2]; simp)
    · intro x hxs hxl
      obtain ⟨nm2, _, s2, hx, _⟩ := hsub.shape x hxs
      refine hrest.not_under nm hdot hnew x hxl (nm2 ++ s2) ?_
      rw [hx]
      simp

theorem Reaches.struct {env : TypeEnv} {t s : TypeId} (h : Reaches env t s) :
    ∃ fields, env s = .Struct fields := by
  induction h with
  | here h => exact ⟨_, h⟩
  | ptr _ _ ih => exact ih
  | slice _ _ ih => exact ih
  | array _ _ ih => exact ih

theorem Reaches.unique {env : TypeEnv} {t s s' : TypeId} (h : Reaches env t s)
    (h' : Reaches env t s') : s = s' := by
  induction h with
  | here h =>
    cases h' with
    | here _ => rfl
    | ptr h2 _ => rw [h] at h2; simp at h2
    | slice h2 _ => rw [h] at h2; simp at h2
    | array h2 _ => rw [h] at h2; simp at h2
  | ptr h _ ih =>
    cases h' with
    | here h2 => rw [h] at h2; simp at h2
    | ptr h2 r2 =>
      rw [h] at h2
      simp only [TypeDesc.Ptr.injEq] at h2
      exact ih (h2 ▸ r2)
    | slice h2 _ => rw [h] at h2; simp at h2
    | array h2 _ => rw [h] at h2; simp at h2
  | slice h _ ih =>
    cases h' with
    | here h2 => rw [h] at h2; simp at h2
    | ptr h2 _ => rw [h] at h2; simp at h2
    | slice h2 r2 =>
      rw [h] at h2
      simp only [TypeDesc.Slice.injEq] at h2
      exact ih (h2 ▸ r2)
    | array h2 _ => rw [h] at h2; simp at h2
  | array h _ ih =>
    cases h' with
    | here h2 => rw [h] at h2; simp at h2
    | ptr h2 _ => rw [h] at h2; simp at h2
    | slice h2 _ => rw [h] at h2; simp at h2
    | array h2 r2 =>
      rw [h] at h2
      simp only [TypeDesc.Array.injEq] at h2
      exact ih (h2.2 ▸ r2)

/-- The field list `exportedFields` returns is empty for a type that unwraps
to no struct, and is the list of included fields of the struct the type unwraps
to otherwise. -/
theorem exportedFields_cases (env : TypeEnv) :
    ∀ (n : Nat) (t : TypeId) (flds : List fieldInfo),
      exportedFields env n (.type t) = .ok flds →
      (flds = [] ∧ ∀ s, ¬ Reaches env t s) ∨
      ∃ s fields, Reaches env t s ∧ env s = .Struct fields ∧ flds = includedFields fields := by
  intro n
  induction n with
  | zero => intro t flds h; simp [exportedFields_zero] at h
  | succ n ih =>
    intro t flds h
    rw [exportedFields_step] at h
    cases hd : env t with
    | Struct fields =>
      simp only [hd, Res.ok.injEq] at h
      exact Or.inr ⟨t, fields, Reaches.here hd, hd, h.symm⟩
    | Ptr e =>
      simp only [hd] at h
      rcases ih e flds h with ⟨h1, h2⟩ | ⟨s, fields, hr, hs, hf⟩
      · refine Or.inl ⟨h1, ?_⟩
        intro s hr
        cases hr with
        | here h0 => rw [hd] at h0; simp at h0
        | ptr h0 r => rw [hd] at h0; simp only [TypeDesc.Ptr.injEq] at h0; exact h2 s (h0 ▸ r)
        | slice h0 _ => rw [hd] at h0; simp at h0
        | array h0 _ => rw [hd] at h0; simp at h0
      · exact Or.inr ⟨s, fields, Reaches.ptr hd hr, hs, hf⟩
    | Slice e =>
      simp only [hd] at h
      rcases ih e flds h with ⟨h1, h2⟩ | ⟨s, fields, hr, hs, hf⟩
      · refine Or.inl ⟨h1, ?_⟩
        intro s hr
        cases hr with
        | here h0 => rw [hd] at h0; simp at h0
        | ptr h0 _ => rw [hd] at h0; simp at h0
        | slice h0 r =>
          rw [hd] at h0; simp only [TypeDesc.Slice.injEq] at h0; exact h2 s (h0 ▸ r)
        | array h0 _ => rw [hd] at h0; simp at h0
      · exact Or.inr ⟨s, fields, Reaches.slice hd hr, hs, hf⟩
    | Array k e =>
      simp only [hd] at h
      rcases ih e flds h with ⟨h1, h2⟩ | ⟨s, fields, hr, hs, hf⟩
      · refine Or.inl ⟨h1, ?_⟩
        intro s hr
        cases hr with
        | here h0 => rw [hd] at h0; simp at h0
        | ptr h0 _ => rw [hd] at h0; simp at h0
        | slice h0 _ => rw [hd] at h0; simp at h0
        | array h0 r =>
          rw [hd] at h0; simp only [TypeDesc.Array.injEq] at h0; exact h2 s (h0.2 ▸ r)
      · exact Or.inr ⟨s, fields, Reaches.array hd hr, hs, hf⟩
    | Map k e =>
      simp only [hd, Res.ok.injEq] at h
      refine Or.inl ⟨h.symm, ?_⟩
      intro s hr
      cases hr with
      | here h0 => rw [hd] at h0; simp at h0
      | ptr h0 _ => rw [hd] at h0; simp at h0
      | slice h0 _ => rw [hd] at h0; simp at h0
      | array h0 _ => rw [hd] at h0; simp at h0
    | Chan e =>
      simp only [hd, Res.ok.injEq] at h
      refine Or.inl ⟨h.symm, ?_⟩
      intro s hr
      cases hr with
      | here h0 => rw [hd] at h0; simp at h0
      | ptr h0 _ => rw [hd] at h0; simp at h0
      | slice h0 _ => rw [hd] at h0; simp at h0
      | array h0 _ => rw [hd] at h0; simp at h0
    | Basic k =>
      simp only [hd, Res.ok.injEq] at h
      refine Or.inl ⟨h.symm, ?_⟩
      intro s hr
      cases hr with
      | here h0 => rw [hd] at h0; simp at h0
      | ptr h0 _ => rw [hd] at h0; simp at h0
      | slice h0 _ => rw [hd] at h0; simp at h0
      | array h0 _ => rw [hd] at h0; simp at h0

theorem sliceChain_iff (env : TypeEnv) (t : TypeId) (c : List StructField) :
    SliceChain env t c ↔
      ∃ f, FieldOf env t f ∧ (env f.Typ).Kind = Kind.Slice ∧
        (c = [f] ∨ ∃ rest, c = f :: rest ∧ SliceChain env f.Typ rest) := by
  constructor
  · intro h
    cases h with
    | last hf ht => exact ⟨_, hf, ht, Or.inl rfl⟩
    | link hf hl hr => exact ⟨_, hf, hl, Or.inr ⟨_, rfl, hr⟩⟩
  · rintro ⟨f, hf, hk, rfl | ⟨rest, rfl, hr⟩⟩
    · exact Chain.last hf hk
    · exact Chain.link hf hk hr

theorem fieldOf_iff (env : TypeEnv) (t s : TypeId) (fields : List StructField)
    (hr : Reaches env t s) (hs : env s = .Struct fields) (f : StructField) :
    FieldOf env t f ↔ f ∈ fields.filter (fun f => exported f && !optedOut f) := by
  constructor
  · rintro ⟨s', fields', hr', hs', hm, he, ho⟩
    have := Reaches.unique hr hr'
    subst this
    rw [hs] at hs'
    simp only [TypeDesc.Struct.injEq] at hs'
    subst hs'
    exact List.mem_filter.mpr ⟨hm, by simp [he, ho]⟩
  · intro hm
    obtain ⟨hm1, hc⟩ := List.mem_filter.mp hm
    simp only [Bool.and_eq_true, Bool.not_eq_eq_eq_not, Bool.not_true] at hc
    exact ⟨s, fields, hr, hs, hm1, hc.1, hc.2⟩

theorem rangeLoop_chains (env : TypeEnv) (recur : Model → String → Res (List String))
    (pfx : String)
    (hrec : ∀ (t : TypeId) (p : String) (sub : List String), recur (.type t) p = .ok sub →
      ∃ cs : List (List StructField), (∀ c, c ∈ cs ↔ SliceChain env t c) ∧
        sub = cs.map (fun c => p ++ joinPath (c.map (fun f => f.Name)))) :
    ∀ (sfs : List StructField) (L : List String),
      rangeLoop env recur pfx
        (sfs.map (fun f => ({ name := f.Name, typ := f.Typ } : fieldInfo))) [] = .ok L →
      ∃ cs : List (List StructField), (∀ c, c ∈ cs ↔ ∃ f ∈ sfs, (env f.Typ).Kind = Kind.Slice ∧
          (c = [f] ∨ ∃ rest, c = f :: rest ∧ SliceChain env f.Typ rest)) ∧
        L = cs.map (fun c => pfx ++ joinPath (c.map (fun f => f.Name))) := by
  intro sfs
  induction sfs with
  | nil =>
    intro L h
    simp only [List.map_nil, rangeLoop, Res.ok.injEq] at h
    subst h
    exact ⟨[], by simp, rfl⟩
  | cons f rest ih =>
    intro L h
    rw [List.map_cons] at h
    by_cases hk : (env f.Typ).Kind = Kind.Slice
    · rw [rangeLoop_cons_slice _ _ _ _ _ hk] at h
      cases hr : recur (.type f.Typ) (pfx ++ f.Name ++ ".") with
      | ok sub =>
        simp only [hr] at h
        cases hrest : rangeLoop env recur pfx
            (rest.map (fun f => ({ name := f.Name, typ := f.Typ } : fieldInfo))) [] with
        | ok more =>
          rw [hrest] at h
          simp only [Res.map, Res.ok.injEq] at h
          subst h
          obtain ⟨csr, hcsr, hmore⟩ := ih more hrest
          obtain ⟨cs', hcs', hsub⟩ := hrec f.Typ _ sub hr
          refine ⟨[f] :: (cs'.map (fun r => f :: r) ++ csr), ?_, ?_⟩
          · intro c
            simp only [List.mem_cons, List.mem_append, List.mem_map, hcsr, hcs']
            constructor
            · rintro (rfl | ⟨r, hr2, rfl⟩ | ⟨g, hg, hgk, hgc⟩)
              · exact ⟨f, Or.inl rfl, hk, Or.inl rfl⟩
              · exact ⟨f, Or.inl rfl, hk, Or.inr ⟨r, rfl, hr2⟩⟩
              · exact ⟨g, Or.inr hg, hgk, hgc⟩
            · rintro ⟨g, rfl | hg, hgk, hgc⟩
              · rcases hgc with rfl | ⟨r, rfl, hr2⟩
                · exact Or.inl rfl
                · exact Or.inr (Or.inl ⟨r, hr2, rfl⟩)
              · exact Or.inr (Or.inr ⟨g, hg, hgk, hgc⟩)
          · simp only [List.map_cons, List.map_append, List.map_map, List.map_nil, joinPath,
              List.cons.injEq, true_and]
            rw [hsub, hmore]
            congr 1
            apply List.map_congr_left
            intro r hr2
            have hne : r.map (fun f => f.Name) ≠ [] := by
              have := ((hcs' r).mp hr2).ne_nil
              simpa using this
            simp only [Function.comp, List.map_cons]
            rw [joinPath_cons _ _ hne]
            simp only [String.append_assoc]
        | abort e => rw [hrest] at h; simp [Res.map] at h
        | timeout => rw [hrest] at h; simp [Res.map] at h
      | abort e => simp [hr] at h
      | timeout => simp [hr] at h
    · rw [rangeLoop_cons_other _ _ _ _ _ _ hk] at h
      obtain ⟨csr, hcsr, hmore⟩ := ih L h
      refine ⟨csr, ?_, hmore⟩
      intro c
      rw [hcsr]
      constructor
      · rintro ⟨g, hg, hgk, hgc⟩
        exact ⟨g, List.mem_cons_of_mem _ hg, hgk, hgc⟩
      · rintro ⟨g, hg, hgk, hgc⟩
        rcases List.mem_cons.mp hg with rfl | hg'
        · exact absurd hgk hk
        · exact ⟨g, hg', hgk, hgc⟩

/-- The list a call of `autoPreloadsInternal` returns is the list of the
paths of an enumeration of all chains of slice fields from the type. -/
theorem autoPreloadsInternal_chains (env : TypeEnv) :
    ∀ (fuel : Nat) (t : TypeId) (pfx : String) (i : Nat) (L : List String),
      autoPreloadsInternal env fuel (.type t) pfx i = .ok L →
      ∃ cs : List (List StructField), (∀ c, c ∈ cs ↔ SliceChain env t c) ∧
        L = cs.map (fun c => pfx ++ joinPath (c.map (fun f => f.Name))) := by
  intro fuel
  induction fuel with
  | zero =>
    intro t pfx i L h
    by_cases hi : i ≤ maxRecursion
    · simp [autoPreloadsInternal_zero env _ pfx i hi] at h
    · simp [autoPreloadsInternal_ceiling env 0 _ pfx i (Nat.lt_of_not_le hi)] at h
  | succ n ih =>
    intro t pfx i L h
    by_cases hi : i ≤ maxRecursion
    · rw [autoPreloadsInternal_succ env n _ pfx i hi] at h
      cases he : exportedFields env (n + 1) (.type t) with
      | ok flds =>
        simp only [he] at h
        rcases exportedFields_cases env (n + 1) t flds he with ⟨rfl, hno⟩ |
          ⟨s, fields, hr, hs, rfl⟩
        · simp only [rangeLoop, Res.ok.injEq] at h
          subst h
          refine ⟨[], ?_, rfl⟩
          intro c
          simp only [List.not_mem_nil, false_iff]
          intro hc
          obtain ⟨f, ⟨s, _, hr, _⟩, _⟩ := (sliceChain_iff env t c).mp hc
          exact hno s hr
        · obtain ⟨cs, hcs, hL⟩ := rangeLoop_chains env _ pfx
            (fun t' p sub hsub => ih t' p (i + 1) sub hsub) _ L h
          refine ⟨cs, ?_, hL⟩
          intro c
          rw [hcs, sliceChain_iff]
          constructor
          · rintro ⟨f, hf, hk, hc⟩
            exact ⟨f, (fieldOf_iff env t s fields hr hs f).mpr hf, hk, hc⟩
          · rintro ⟨f, hf, hk, hc⟩
            exact ⟨f, (fieldOf_iff env t s fields hr hs f).mp hf, hk, hc⟩
      | abort e => simp [he] at h
      | timeout => simp [he] at h
    · simp [autoPreloadsInternal_ceiling env (n + 1) _ pfx i (Nat.lt_of_not_le hi)] at h

/-- C14. On a type table in which, as Go guarantees, no field name holds a `.`
and the exported field names of a struct are pairwise different, a list `L`
that `autoPreloads` returns holds no string twice, and it is the list of the
paths of an enumeration without repetition of all chains of nested, exported,
not opted-out slice fields from the root: there are as many paths as chains,
and two different chains, so also two chains that end in the same field name
under different parents, give different strings. -/
theorem paths_distinct (env : TypeEnv) (fuel : Nat) (m : Model) (t : TypeId)
    (L : List String) (hw : WellNamed env) (hm : m.typ = some t)
    (h : autoPreloads env fuel m = .ok L) :
    L.Nodup ∧
    ∃ cs : List (List StructField), cs.Nodup ∧ (∀ c, c ∈ cs ↔ SliceChain env t c) ∧
      L = cs.map (fun c => joinPath (c.map (fun f => f.Name))) ∧ L.length = cs.length ∧
      ∀ c1 c2, SliceChain env t c1 → SliceChain env t c2 →
        joinPath (c1.map (fun f => f.Name)) = joinPath (c2.map (fun f => f.Name)) →
        c1 = c2 := by
  rw [autoPreloads_typ env fuel m t hm] at h
  have hnodup : L.Nodup := by
    obtain ⟨names, hflat⟩ := autoPreloadsInternal_flat env hw fuel t "" 0 L h
    exact List.Nodup.of_map _ hflat.nodup
  obtain ⟨cs, hcs, hL⟩ := autoPreloadsInternal_chains env fuel t "" 0 L h
  have hL' : L = cs.map (fun c => joinPath (c.map (fun f => f.Name))) := by
    rw [hL]
    apply List.map_congr_left
    intro c _
    exact String.empty_append _
  have hmapnodup : (cs.map (fun c => joinPath (c.map (fun f => f.Name)))).Nodup := hL' ▸ hnodup
  refine ⟨hnodup, cs, List.Nodup.of_map _ hmapnodup, hcs, hL', ?_, ?_⟩
  · rw [hL']
    simp
  · intro c1 c2 h1 h2 heq
    exact List.inj_on_of_nodup_map hmapnodup ((hcs c1).mpr h1) ((hcs c2).mpr h2) heq

theorem paths_distinct_witness :
    ["Children", "Children.ChildrenT2", "Children.ChildrenT2.ChildrenT3"].Nodup ∧
    ∃ cs : List (List StructField), cs.Nodup ∧ (∀ c, c ∈ cs ↔ SliceChain testEnv 12 c) ∧
      ["Children", "Children.ChildrenT2", "Children.ChildrenT2.ChildrenT3"]
        = cs.map (fun c => joinPath (c.map (fun f => f.Name))) ∧
      ["Children", "Children.ChildrenT2", "Children.ChildrenT2.ChildrenT3"].length
        = cs.length ∧
      ∀ c1 c2, SliceChain testEnv 12 c1 → SliceChain testEnv 12 c2 →
        joinPath (c1.map (fun f => f.Name)) = joinPath (c2.map (fun f => f.Name)) →
        c1 = c2 :=
  paths_distinct testEnv 10 (.value 12) 12
    ["Children", "Children.ChildrenT2", "Children.ChildrenT2.ChildrenT3"]
    testEnv_wellNamed rfl (by decide)

/-! ## C13: a slice field whose element type unwraps to no struct -/

theorem unwrapLoop_deterministic (env : TypeEnv) (a b : Nat) (t : TypeId)
    (x y : Option (List StructField)) (hx : unwrapLoop env a t = .ok x)
    (hy : unwrapLoop env b t = .ok y) : x = y := by
  have h1 := unwrapLoop_mono env a (max a b) (le_max_left _ _) t x hx
  have h2 := unwrapLoop_mono env b (max a b) (le_max_right _ _) t y hy
  rw [h1] at h2
  simpa using h2

/-- The call for a type that unwraps to no struct returns the empty list
whenever it returns a list. -/
theorem autoPreloadsInternal_leaf (env : TypeEnv) (k : Nat) (t : TypeId) (p : String)
    (j : Nat) (sub : List String) (hleaf : ∃ n, unwrapLoop env n t = .ok none)
    (h : autoPreloadsInternal env k (.type t) p j = .ok sub) : sub = [] := by
  obtain ⟨n, hn⟩ := hleaf
  by_cases hj : j ≤ maxRecursion
  · cases k with
    | zero => simp [autoPreloadsInternal_zero env _ p j hj] at h
    | succ k =>
      rw [autoPreloadsInternal_succ env k _ p j hj] at h
      unfold exportedFields at h
      simp only [Model.typ] at h
      cases hu : unwrapLoop env (k + 1) t with
      | ok x =>
        have hx := unwrapLoop_deterministic env (k + 1) n t x none hu hn
        subst hx
        simp only [hu, rangeLoop, Res.ok.injEq] at h
        exact h.symm
      | abort e => simp [hu] at h
      | timeout => simp [hu] at h
  · simp [autoPreloadsInternal_ceiling env k _ p j (Nat.lt_of_not_le hj)] at h

/-- In a flat list no element is `pfx+name`, and none lies under it, for a
name that is not among the roots. -/
theorem Flat.not_at {pfx : List Char} {names L : List (List Char)} (h : Flat pfx names L)
    (nm : List Char) (hdot : '.' ∉ nm) (hnew : nm ∉ names) :
    ∀ x ∈ L, x ≠ pfx ++ nm := by
  intro x hx hxe
  obtain ⟨nm1, hm1, s, hxs, hs⟩ := h.shape x hx
  rw [hxs, List.append_assoc, List.append_cancel_left_eq] at hxe
  rcases hs with rfl | ⟨s', rfl⟩
  · rw [List.append_nil] at hxe
    exact hnew (hxe ▸ hm1)
  · exact hdot (by rw [← hxe]; simp)

theorem flat_strings_avoid (pfx name : String) (names : List (List Char))
    (M : List String) (h : Flat pfx.data names (M.map String.data))
    (hdot : '.' ∉ name.data) (hnew : name.data ∉ names) :
    (pfx ++ name) ∉ M ∧ ∀ y ∈ M, hasPfx (pfx ++ name ++ ".").data y.data = false := by
  constructor
  · intro hm
    have hmem : (pfx ++ name).data ∈ M.map String.data := List.mem_map.mpr ⟨_, hm, rfl⟩
    exact h.not_at name.data hdot hnew _ hmem (by simp [String.data_append])
  · intro y hy
    rw [Bool.eq_false_iff]
    intro hp
    obtain ⟨r, hr⟩ := (hasPfx_iff _ _).mp hp
    have hmem : y.data ∈ M.map String.data := List.mem_map.mpr ⟨_, hy, rfl⟩
    refine h.not_under name.data hdot hnew _ hmem r ?_
    rw [hr]
    simp [String.data_append]

/-- The loop step at a slice field whose type unwraps to no struct, at a
counter below the ceiling: the call for the field returns the empty list, and
the step appends `pfx+name` and nothing else. -/
theorem leaf_field_step (env : TypeEnv) (pfx : String) (i : Nat) (fld : fieldInfo)
    (hk : (env fld.typ).Kind = Kind.Slice) (n : Nat) (rest : List fieldInfo)
    (out : List String) (hi : i < maxRecursion)
    (hu : unwrapLoop env (n + 1) fld.typ = .ok none) :
    autoPreloadsInternal env (n + 1) (.type fld.typ) (pfx ++ fld.name ++ ".") (i + 1) = .ok [] ∧
    rangeLoop env (fun m p => autoPreloadsInternal env (n + 1) m p (i + 1)) pfx
        (fld :: rest) out
      = rangeLoop env (fun m p => autoPreloadsInternal env (n + 1) m p (i + 1)) pfx
        rest (out ++ [pfx ++ fld.name]) := by
  have he : exportedFields env (n + 1) (.type fld.typ) = .ok [] := by
    unfold exportedFields
    simp only [Model.typ, hu]
  have hcall : autoPreloadsInternal env (n + 1) (.type fld.typ) (pfx ++ fld.name ++ ".")
      (i + 1) = .ok [] := by
    rw [autoPreloadsInternal_succ env n _ _ (i + 1) hi, he]
    rfl
  refine ⟨hcall, ?_⟩
  rw [rangeLoop_cons_slice_acc _ _ _ _ _ _ hk]
  simp only [hcall, List.append_nil]

/-- C13 (as amended). Let a model unwrap to a struct with an exported slice
field `F` without opt-out annotation whose type unwraps, through pointers,
slices and arrays, to no struct (`F []string`, `F []*int`), on a type table
with the names Go guarantees. Whenever `autoPreloadsInternal` returns a list
for the model under the prefix `pfx`, that list holds the path `pfx+F` exactly
once and no path that has `pfx+F+"."` as a prefix; and `exportedFields` on the
type of the field returns the empty field list. -/
theorem leaf_collection (env : TypeEnv) (fuel : Nat) (m : Model) (t : TypeId)
    (pfx : String) (i : Nat) (L : List String) (f : StructField)
    (hw : WellNamed env) (hm : m.typ = some t) (hf : FieldOf env t f)
    (hk : (env f.Typ).Kind = Kind.Slice) (hleaf : ∃ n, unwrapLoop env n f.Typ = .ok none)
    (h : autoPreloadsInternal env fuel m pfx i = .ok L) :
    L.count (pfx ++ f.Name) = 1 ∧
    (∀ y ∈ L, hasPfx (pfx ++ f.Name ++ ".").data y.data = false) ∧
    (∃ N, ∀ n, N ≤ n → exportedFields env n (.type f.Typ) = .ok []) := by
  have hlast : ∃ N, ∀ n, N ≤ n → exportedFields env n (.type f.Typ) = .ok [] := by
    obtain ⟨N, hN⟩ := hleaf
    refine ⟨N, ?_⟩
    intro n hn
    unfold exportedFields
    simp only [Model.typ, unwrapLoop_mono env N n hn f.Typ none hN]
  have h' : autoPreloadsInternal env fuel (.type t) pfx i = .ok L := by
    cases m with
    | nil => simp [Model.typ] at hm
    | value t' =>
      simp only [Model.typ, Option.some.injEq] at hm
      subst hm
      rw [← autoPreloadsInternal_value]
      exact h
    | type t' =>
      simp only [Model.typ, Option.some.injEq] at hm
      subst hm
      exact h
  by_cases hi : i ≤ maxRecursion
  · cases fuel with
    | zero => simp [autoPreloadsInternal_zero env _ pfx i hi] at h'
    | succ n =>
      rw [autoPreloadsInternal_succ env n _ pfx i hi] at h'
      cases he : exportedFields env (n + 1) (.type t) with
      | ok flds =>
        simp only [he] at h'
        obtain ⟨hdots, hnodup⟩ := exportedFields_wellNamed env hw (n + 1) t flds he
        obtain ⟨s, fields, hr, hs, hmem, hexp, hopt⟩ := hf
        have hflds := exportedFields_reaches env t s fields hr hs (n + 1) flds he
        have hin : ({ name := f.Name, typ := f.Typ } : fieldInfo) ∈ flds :=
          hflds ▸ mem_includedFields fields f hmem hexp hopt
        obtain ⟨pre, post, hsplit⟩ := List.append_of_mem hin
        rw [hsplit] at h' hdots hnodup
        simp only [List.map_append, List.map_cons, List.nodup_append, List.nodup_cons,
          List.disjoint_cons_right] at hnodup
        obtain ⟨hpre, ⟨hnpost, hpost⟩, hnpre, _⟩ := hnodup
        rw [rangeLoop_append] at h'
        have hrec : ∀ (t' : TypeId) (p : String) (sub : List String),
            autoPreloadsInternal env n (.type t') p (i + 1) = .ok sub →
            ∃ names, Flat p.data names (sub.map String.data) :=
          fun t' p sub hsub => autoPreloadsInternal_flat env hw n t' p (i + 1) sub hsub
        cases h1 : rangeLoop env (fun m p => autoPreloadsInternal env n m p (i + 1)) pfx
            pre [] with
        | ok L1 =>
          simp only [h1] at h'
          rw [rangeLoop_acc, rangeLoop_cons_slice _ _ _ _ _ hk] at h'
          cases hsub : autoPreloadsInternal env n (.type f.Typ) (pfx ++ f.Name ++ ".")
              (i + 1) with
          | ok sub =>
            simp only [hsub] at h'
            have hnil := autoPreloadsInternal_leaf env n f.Typ _ (i + 1) sub hleaf hsub
            subst hnil
            cases h2 : rangeLoop env (fun m p => autoPreloadsInternal env n m p (i + 1)) pfx
                post [] with
            | ok L2 =>
              rw [h2] at h'
              simp only [Res.map, List.nil_append, Res.ok.injEq] at h'
              subst h'
              obtain ⟨names1, hn1, hflat1⟩ := rangeLoop_flat env _ pfx hrec pre L1
                (fun fld hm => hdots fld (List.mem_append_left _ hm)) hpre h1
              obtain ⟨names2, hn2, hflat2⟩ := rangeLoop_flat env _ pfx hrec post L2
                (fun fld hm => hdots fld
                  (List.mem_append_right _ (List.mem_cons_of_mem _ hm))) hpost h2
              have hdot : '.' ∉ f.Name.data :=
                hdots _ (List.mem_append_right _ (List.mem_cons_self _ _))
              have hnew1 : f.Name.data ∉ names1 := by
                intro hm
                obtain ⟨fld, hfld, hfn⟩ := hn1 _ hm
                exact hnpre (List.mem_map.mpr ⟨fld, hfld, (String.ext hfn).symm⟩)
              have hnew2 : f.Name.data ∉ names2 := by
                intro hm
                obtain ⟨fld, hfld, hfn⟩ := hn2 _ hm
                exact hnpost (List.mem_map.mpr ⟨fld, hfld, (String.ext hfn).symm⟩)
              obtain ⟨ha1, hb1⟩ := flat_strings_avoid pfx f.Name names1 L1 hflat1 hdot hnew1
              obtain ⟨ha2, hb2⟩ := flat_strings_avoid pfx f.Name names2 L2 hflat2 hdot hnew2
              refine ⟨?_, ?_, hlast⟩
              · rw [List.count_append, List.count_cons, List.count_eq_zero_of_not_mem ha1,
                  List.count_eq_zero_of_not_mem ha2]
                simp
              · intro y hy
                rcases List.mem_append.mp hy with hy1 | hy2
                · exact hb1 y hy1
                · rcases List.mem_cons.mp hy2 with rfl | hy3
                  · rw [Bool.eq_false_iff]
                    intro hp
                    obtain ⟨r, hr2⟩ := (hasPfx_iff _ _).mp hp
                    have h3 : (pfx ++ f.Name).data = (pfx ++ f.Name).data ++ ('.' :: r) := by
                      conv_lhs => rw [hr2]
                      simp [String.data_append]
                    have := List.self_eq_append_right.mp h3
                    simp at this
                  · exact hb2 y hy3
            | abort e => rw [h2] at h'; simp [Res.map] at h'
            | timeout => rw [h2] at h'; simp [Res.map] at h'
          | abort e => simp [hsub, Res.map] at h'
          | timeout => simp [hsub, Res.map] at h'
        | abort e => simp [h1] at h'
        | timeout => simp [h1] at h'
      | abort e => simp [he] at h'
      | timeout => simp [he] at h'
  · simp [autoPreloadsInternal_ceiling env fuel _ pfx i (Nat.lt_of_not_le hi)] at h'

theorem leafEnv_wellNamed : WellNamed leafEnv := by
  intro t
  unfold leafEnv
  split <;> decide

theorem leaf_collection_witness :
    ["Tags", "Parts", "Parts.Notes", "Refs"].count ("" ++ "Refs") = 1 ∧
    (∀ y ∈ ["Tags", "Parts", "Parts.Notes", "Refs"],
      hasPfx ("" ++ "Refs" ++ ".").data y.data = false) :=
  ⟨(leaf_collection leafEnv 10 (.value 0) 0 "" 0 ["Tags", "Parts", "Parts.Notes", "Refs"]
      ⟨"Refs", "", 5, []⟩ leafEnv_wellNamed rfl
      ⟨0, _, Reaches.here (show leafEnv 0 = .Struct [⟨"Tags", "", 1, []⟩,
        ⟨"Parts", "", 3, []⟩, ⟨"Refs", "", 5, []⟩] from rfl), rfl, by simp, rfl, rfl⟩
      rfl ⟨3, rfl⟩ (by decide)).1,
    (leaf_collection leafEnv 10 (.value 0) 0 "" 0 ["Tags", "Parts", "Parts.Notes", "Refs"]
      ⟨"Refs", "", 5, []⟩ leafEnv_wellNamed rfl
      ⟨0, _, Reaches.here (show leafEnv 0 = .Struct [⟨"Tags", "", 1, []⟩,
        ⟨"Parts", "", 3, []⟩, ⟨"Refs", "", 5, []⟩] from rfl), rfl, by simp, rfl, rfl⟩
      rfl ⟨3, rfl⟩ (by decide)).2.1⟩

theorem selfLeafEnv_wellNamed : WellNamed selfLeafEnv := by
  intro t
  unfold selfLeafEnv
  split <;> decide

/-- C13 as stated fails: `Doc{Tags []string; Kids []Doc}` has the exported
slice field `Tags`, without opt-out annotation, whose element type is no
struct, and `autoPreloads` on it aborts at the recursion ceiling, as it does on
every self-referential model: no run returns a list, so none holds the path
`Tags`. -/
theorem leaf_field_of_aborting_model :
    autoPreloads selfLeafEnv 202 (.value 0) = .abort (.maxRecursion 201) ∧
    ¬ (∀ (env : TypeEnv) (m : Model) (t : TypeId) (f : StructField),
      WellNamed env → m.typ = some t → FieldOf env t f →
      (env f.Typ).Kind = Kind.Slice → (∃ n, unwrapLoop env n f.Typ = .ok none) →
      ∃ fuel L, autoPreloads env fuel m = .ok L ∧ L.count f.Name = 1 ∧
        ∀ y ∈ L, hasPfx (f.Name ++ ".").data y.data = false) := by
  refine ⟨by set_option maxRecDepth 100000 in decide, ?_⟩
  intro hclaim
  have hdoc : selfLeafEnv 0 = .Struct [⟨"Tags", "", 1, []⟩, ⟨"Kids", "", 3, []⟩] := rfl
  obtain ⟨fuel, L, hok, _⟩ := hclaim selfLeafEnv (.value 0) 0 ⟨"Tags", "", 1, []⟩
    selfLeafEnv_wellNamed rfl
    ⟨0, _, Reaches.here hdoc, hdoc, by simp, rfl, rfl⟩ rfl ⟨2, rfl⟩
  have hself : SelfReferential selfLeafEnv 0 :=
    ⟨_, ⟨"Kids", "", 3, []⟩, hdoc, by simp, rfl, rfl, rfl,
      Reaches.slice (show selfLeafEnv 3 = .Slice 0 from rfl) (Reaches.here hdoc)⟩
  rw [autoPreloads_typ selfLeafEnv fuel (.value 0) 0 rfl] at hok
  exact selfReferential_never_ok selfLeafEnv 0 hself (maxRecursion + 1) fuel 0 "" 0 L
    (by omega) (Reaches.here hdoc) hok

end Ezg
